import Mathlib

/-!
Verification of the grizli redshift/template fitting engine
(src/grizli/fitting.py) against its specification.

The development shallowly embeds the fitting engine over exact rationals:
full-precision arrays become lists of rationals, boolean pixel masks become
lists of booleans, and the mutable GroupFitter object becomes an explicit
state record.  External collaborators that live outside the two source
files (the scipy solvers, the instrument projector beam.compute_model, the
eazy filter integration, numpy matrix inversion, numpy sqrt and exp, the
scipy Akima spline, and the peakutils peak finder) are modelled as oracle
function parameters, exactly at the call boundary where the source invokes
them.  Everything between those boundaries is translated line by line from
fitting.py.
-/

/-! ## Elementwise list arithmetic (numpy array operations) -/

/-- Elementwise product of two arrays, numpy a*b. -/
def zipMul (a b : List ℚ) : List ℚ := List.zipWith (· * ·) a b

/-- Elementwise sum of two arrays, numpy a+b. -/
def zipAdd (a b : List ℚ) : List ℚ := List.zipWith (· + ·) a b

/-- Elementwise difference of two arrays, numpy a-b. -/
def zipSub (a b : List ℚ) : List ℚ := List.zipWith (· - ·) a b

/-- Elementwise quotient of two arrays, numpy a/b. -/
def zipDiv (a b : List ℚ) : List ℚ := List.zipWith (· / ·) a b

/-- Dot product of two arrays. -/
def dotQ (a b : List ℚ) : ℚ := (zipMul a b).sum

/-- Boolean fancy indexing, numpy arr[mask]. -/
def maskSelect (l : List ℚ) (m : List Bool) : List ℚ :=
  (l.zip m).filterMap (fun p => if p.2 then some p.1 else none)

/-- Boolean fancy indexing for an array of optional bounds. -/
def maskSelectO (l : List (Option ℚ)) (m : List Bool) : List (Option ℚ) :=
  (l.zip m).filterMap (fun p => if p.2 then some p.1 else none)

/-- Boolean fancy indexing on the rows of a matrix, numpy M[mask,:]. -/
def maskRows (rows : List (List ℚ)) (m : List Bool) : List (List ℚ) :=
  (rows.zip m).filterMap (fun p => if p.2 then some p.1 else none)

/-- Number of True entries of a boolean mask, numpy mask.sum(). -/
def countTrue (m : List Bool) : ℕ := m.countP id

/-- Sum of numpy w*mask for a float array w and boolean mask. -/
def sumWeightMask (w : List ℚ) (m : List Bool) : ℚ :=
  (List.zipWith (fun x b => if b then x else 0) w m).sum

/-- Python int() truncation of a rational toward zero. -/
def pyInt (q : ℚ) : ℤ := if 0 ≤ q then ⌊q⌋ else ⌈q⌉

/-- First n entries of a list, zero padded to length exactly n (the shape
numpy enforces on a block assignment). -/
def takePad : ℕ → List ℚ → List ℚ
  | 0, _ => []
  | n + 1, [] => 0 :: takePad n []
  | n + 1, x :: xs => x :: takePad n xs

/-- Overwrite the last n entries of an array with a constant,
numpy arr[-n:] = v. -/
def setTail (l : List ℚ) (n : ℕ) (v : ℚ) : List ℚ :=
  l.take (l.length - n) ++ List.replicate (l.length - (l.length - n)) v

/-- Subtract a constant from the first n entries, numpy arr[:n] -= p. -/
def subFront : ℕ → List ℚ → ℚ → List ℚ
  | 0, l, _ => l
  | _ + 1, [], _ => []
  | n + 1, x :: xs, p => (x - p) :: subFront n xs p

/-- Scatter a packed value list back into the True positions of a mask,
numpy full[mask] = packed with full initialized to zeros. -/
def scatter : List Bool → List ℚ → List ℚ
  | [], _ => []
  | true :: bs, [] => 0 :: scatter bs []
  | true :: bs, v :: vs => v :: scatter bs vs
  | false :: bs, vs => 0 :: scatter bs vs

/-- Map over a list together with element indices. -/
def mapWithIndex (f : ℕ → α → β) (l : List α) : List β :=
  List.zipWith f (List.range l.length) l

/-- Square zero matrix of the given size. -/
def zeroMat (n : ℕ) : List (List ℚ) :=
  List.replicate n (List.replicate n 0)

/-- Diagonal of a matrix, numpy M.diagonal(). -/
def diagOf (m : List (List ℚ)) : List ℚ :=
  mapWithIndex (fun i row => row.getD i 0) m

/-- Product of a coefficient vector with a stack of rows,
numpy dot(v, rows) giving an array of the stated length. -/
def matVecLeft (v : List ℚ) (rows : List (List ℚ)) (len : ℕ) : List ℚ :=
  (v.zip rows).foldl (fun acc p => zipAdd acc (p.2.map (· * p.1)))
    (List.replicate len 0)

/-- Gram matrix of a stack of rows: entry (i,j) is the dot product of rows
i and j.  In the source this is np.dot(AxT.T, AxT) for AxT the transposed
design matrix, which is exactly the pairwise row dot products of Ax. -/
def gramOf (rows : List (List ℚ)) : List (List ℚ) :=
  rows.map (fun ri => rows.map (fun rj => dotQ ri rj))

/-- Minimum entry of a nonempty array, numpy arr.min() (0 for an empty
array, a case numpy rejects at runtime). -/
def listMin : List ℚ → ℚ
  | [] => 0
  | h :: t => t.foldl min h

/-- Trapezoidal integral of samples y over abscissae x, numpy trapz(y, x). -/
def npTrapz : List ℚ → List ℚ → ℚ
  | y0 :: y1 :: ys, x0 :: x1 :: xs =>
      (x1 - x0) * (y0 + y1) / 2 + npTrapz (y1 :: ys) (x1 :: xs)
  | _, _ => 0

/-- Inner loop of one dimensional linear interpolation: x0,f0 is the last
node at or below the query (invariant x0 < q). -/
def interpGo (q x0 : ℚ) (f0 : ℚ) : List ℚ → List ℚ → ℚ
  | x1 :: xs, f1 :: fs =>
      if q ≤ x1 then f0 + (f1 - f0) * (q - x0) / (x1 - x0)
      else interpGo q x1 f1 xs fs
  | _, _ => f0

/-- One dimensional linear interpolation with edge clamping,
numpy interp(q, xp, fp) for xp sorted increasing. -/
def npInterp (q : ℚ) : List ℚ → List ℚ → ℚ
  | x0 :: xs, f0 :: fs => if q ≤ x0 then f0 else interpGo q x0 f0 xs fs
  | _, _ => 0

/-- Interior and edge finite differences, continuing numpy gradient after
its first entry. -/
def gradGo (prev cur : ℚ) : List ℚ → List ℚ
  | [] => [cur - prev]
  | nxt :: rest => (nxt - prev) / 2 :: gradGo cur nxt rest

/-- Second order finite differences, numpy gradient(x) for a 1d array. -/
def npGradient : List ℚ → List ℚ
  | [] => []
  | [_] => [0]
  | x0 :: x1 :: rest => (x1 - x0) :: gradGo x0 x1 rest

/-- Running sums continuing from an accumulator. -/
def cumsumFrom (acc : ℚ) : List ℚ → List ℚ
  | [] => []
  | v :: vs => (acc + v) :: cumsumFrom (acc + v) vs

/-- Cumulative sums of an array, numpy cumsum. -/
def cumsum (l : List ℚ) : List ℚ := cumsumFrom 0 l

/-- Arithmetic progression, numpy arange(start, stop, step): the number of
samples is the ceiling of (stop-start)/step. -/
def arangeQ (start stop step : ℚ) : List ℚ :=
  (List.range (((stop - start) / step).ceil.toNat)).map
    (fun k => start + k * step)

/-- Horner evaluation of a polynomial with highest order coefficient
first, numpy polyval(p, x). -/
def npPolyval (p : List ℚ) (x : ℚ) : ℚ :=
  p.foldl (fun acc a => acc * x + a) 0

/-! ## A stable model of numpy argsort -/

/-- Total order on indices comparing first the keyed values and breaking
ties by index; sorting index lists by it models numpy argsort. -/
def idxRel (vals : List ℚ) (i j : ℕ) : Prop :=
  vals.getD i 0 < vals.getD j 0 ∨ (vals.getD i 0 = vals.getD j 0 ∧ i ≤ j)

instance idxRelDecidable (vals : List ℚ) : DecidableRel (idxRel vals) :=
  fun i j => by unfold idxRel; infer_instance

instance idxRelTotal (vals : List ℚ) : IsTotal ℕ (idxRel vals) := by
  refine ⟨fun i j => ?_⟩
  rcases lt_trichotomy (vals.getD i 0) (vals.getD j 0) with h | h | h
  · exact Or.inl (Or.inl h)
  · rcases Nat.le_total i j with hij | hij
    · exact Or.inl (Or.inr ⟨h, hij⟩)
    · exact Or.inr (Or.inr ⟨h.symm, hij⟩)
  · exact Or.inr (Or.inl h)

instance idxRelTrans (vals : List ℚ) : IsTrans ℕ (idxRel vals) := by
  refine ⟨fun a b c hab hbc => ?_⟩
  rcases hab with h1 | ⟨e1, l1⟩
  · rcases hbc with h2 | ⟨e2, _⟩
    · exact Or.inl (h1.trans h2)
    · exact Or.inl (e2 ▸ h1)
  · rcases hbc with h2 | ⟨e2, l2⟩
    · exact Or.inl (e1 ▸ h2)
    · exact Or.inr ⟨e1.trans e2, l1.trans l2⟩

/-- Sorting permutation of an array, numpy argsort(vals): a permutation of
range(len(vals)) listing indices in order of increasing value. -/
def argsortKey (vals : List ℚ) : List ℕ :=
  List.insertionSort (idxRel vals) (List.range vals.length)

/-- Apply an index array to a rational array, numpy arr[idx]. -/
def applyIdx (idx : List ℕ) (l : List ℚ) : List ℚ :=
  idx.map (fun i => l.getD i 0)

/-- Apply an index array to a stack of rows, numpy arr2d[idx,:]. -/
def applyIdxRows (idx : List ℕ) (l : List (List ℚ)) : List (List ℚ) :=
  idx.map (fun i => l.getD i [])

/-- Apply an index array to a stack of matrices, numpy arr3d[idx,:,:]. -/
def applyIdxMats (idx : List ℕ) (l : List (List (List ℚ))) :
    List (List (List ℚ)) :=
  idx.map (fun i => l.getD i [])

/-! ## Data model -/

/-- A fitting template as seen by xfit_at_z: only its position in the
ordered template set and whether its key starts with "line" (which relaxes
the lower bound for the bounded solver) are consumed directly; the spectrum
itself only flows through the external projector and filter oracles. -/
structure Tmpl where
  isLine : Bool
deriving Repr, DecidableEq

/-- The minimization algorithm choice: the fitter strings "nnls" and
"lstsq" are dispatched explicitly in the source and every other string
falls through to bounded least squares (bvls). -/
inductive Fitter
  | nnls
  | lstsq
  | bvls
deriving Repr, DecidableEq

/-- Python return value of the photometry setters: True, False, or the
implicit None of a return-less exit. -/
inductive PyRet
  | retTrue
  | retFalse
  | retNone
deriving Repr, DecidableEq

/-- The GroupFitter state consumed by the fitting engine: concatenated
flattened arrays over all beams, the masked background block, the
photometric block, and the derived counters.  Filters are represented by
their pivot wavelengths, the only attribute the fitting code reads. -/
structure GroupState where
  N : ℕ
  scif : List ℚ
  sivarf : List ℚ
  weightf : List ℚ
  wavef : List ℚ
  fit_mask : List Bool
  isSpec : Option (List Bool)
  Nphot : ℕ
  Nmask : ℕ
  DoF : ℤ
  A_bgm : List (List ℚ)
  pscale : Option (List ℚ)
  photom_flam : List ℚ
  photom_eflam : List ℚ
  photom_pivot : List ℚ
  tempfilt : Bool

/-- External collaborators of xfit_at_z, modelled as oracles.
projRow i z is the masked spectral row the beam loop assembles for
template i from beam.compute_model (before the COEFF_SCALE factor);
interpPhot z is the output of _interpolate_photometry, whose values come
entirely from the external eazy tempfilt or filter integration; the three
solvers are scipy.optimize.nnls, numpy lstsq and scipy lsq_linear with
bvls bounds; matInv is numpy matrix inversion returning none when it
raises on a singular input; sqrtF is numpy sqrt. -/
structure Oracles where
  projRow : ℕ → ℚ → List ℚ
  interpPhot : ℚ → List (List ℚ)
  nnlsSolve : List (List ℚ) → List ℚ → List ℚ
  lstsqSolve : List (List ℚ) → List ℚ → List ℚ
  bvlsSolve : List (List ℚ) → List ℚ → List (Option ℚ) → List (Option ℚ) →
    List ℚ
  matInv : List (List ℚ) → Option (List (List ℚ))
  sqrtF : ℚ → ℚ

/-- Result record of xfit_at_z. -/
structure FitAtZOut where
  chi2 : ℚ
  coeffs : List ℚ
  coeffs_err : List ℚ
  covar : List (List ℚ)

/-! ## set_photometry and unset_photometry (fitting.py lines 498-553) -/

/-- The is_spec spectral indicator as a 0/1 array over the concatenated
data: the Python attribute is either a boolean array or the scalar 1
(broadcast all-ones) that unset_photometry restores. -/
def specIndicator (st : GroupState) : List ℚ :=
  match st.isSpec with
  | none => List.replicate st.scif.length 1
  | some m => m.map (fun b => if b then (1 : ℚ) else 0)

/-- GroupFitter.set_photometry: records the photometric block and extends
the concatenated science, inverse sigma, weight, mask and wavelength
arrays.  sqF is numpy sqrt; min_err is the photometric error floor.  The
dimension check runs only after Nphot has already been overwritten with
the count of positive uncertainties, and only when that count is
nonzero. -/
def set_photometry (sqF : ℚ → ℚ) (st : GroupState)
    (flam eflam filters : List ℚ) (force : Bool) (tfilt : Bool)
    (min_err : ℚ) : PyRet × GroupState :=
  if 0 < st.Nphot ∧ force = false then (PyRet.retTrue, st)
  else
    let nph := eflam.countP (fun e => decide (0 < e))
    let st1 := { st with Nphot := nph }
    if nph = 0 then (PyRet.retTrue, st1)
    else if flam.length ≠ eflam.length ∨ flam.length ≠ filters.length then
      (PyRet.retFalse, st1)
    else
      let pef0 := List.zipWith (fun e f => sqF (e ^ 2 + (min_err * f) ^ 2))
        eflam flam
      let pef := List.zipWith (fun e p => if e < 0 then (-99 : ℚ) else p)
        eflam pef0
      let sv := st.sivarf ++ pef.map (fun p => 1 / p)
      let wf := st.weightf ++ pef.map (fun _ => (1 : ℚ))
      let fm := st.fit_mask ++ eflam.map (fun e => decide (0 < e))
      let sc := st.scif ++ flam
      (PyRet.retNone,
        { st1 with
          photom_flam := flam
          photom_eflam := pef
          sivarf := sv
          weightf := wf
          fit_mask := fm
          Nmask := countTrue fm
          scif := sc
          DoF := pyInt (sumWeightMask wf fm)
          isSpec := some (List.replicate (sc.length - flam.length) true ++
            List.replicate flam.length false)
          photom_pivot := filters
          wavef := st.wavef ++ filters
          tempfilt := tfilt })

/-- GroupFitter.unset_photometry: strips the trailing Nphot photometric
entries from every concatenated array, recomputes the mask count and the
degrees of freedom, and resets the spectral indicator to the scalar 1. -/
def unset_photometry (st : GroupState) : PyRet × GroupState :=
  if st.Nphot = 0 then (PyRet.retTrue, st)
  else
    let fm := st.fit_mask.take (st.fit_mask.length - st.Nphot)
    let wf := st.weightf.take (st.weightf.length - st.Nphot)
    (PyRet.retNone,
      { st with
        sivarf := st.sivarf.take (st.sivarf.length - st.Nphot)
        weightf := wf
        fit_mask := fm
        scif := st.scif.take (st.scif.length - st.Nphot)
        wavef := st.wavef.take (st.wavef.length - st.Nphot)
        Nmask := countTrue fm
        DoF := pyInt (sumWeightMask wf fm)
        isSpec := none
        Nphot := 0 })

/-! ## xfit_at_z, the per-redshift constrained fit
(fitting.py lines 586-797) -/

/-- The uniform conditioning factor applied to template rows and undone on
the returned template coefficients, COEFF_SCALE = 1e-19. -/
def COEFF_SCALE : ℚ := 1 / 10 ^ 19

/-- GroupFitter.compute_scale_array: polynomial flux rescaling evaluated
at the given wavelengths, np.polyval((pscale/rescale)[::-1],
(wave-1e4)/1000) with rescale = 10**(arange(len(pscale))+1). -/
def computeScaleArray (ps : List ℚ) (wave : List ℚ) : List ℚ :=
  let rescale := (List.range ps.length).map (fun k => (10 : ℚ) ^ (k + 1))
  let coefRev := (zipDiv ps rescale).reverse
  wave.map (fun w => npPolyval coefRev ((w - 10000) / 1000))

/-- The design matrix A over masked positions (lines 626-693): the first N
rows are the per-beam background indicators A_bgm when fit_background is
set (zeros otherwise), the next NTEMP rows are the projected template
models times COEFF_SCALE, and when photometry is attached the last Nphot
columns of every row are overwritten with the _interpolate_photometry
block times COEFF_SCALE. -/
def buildA (pr : Oracles) (st : GroupState) (z : ℚ) (tmpls : List Tmpl)
    (fb : Bool) : List (List ℚ) :=
  let nspec := st.Nmask - st.Nphot
  let photRows := pr.interpPhot z
  let photPart := fun (r : ℕ) =>
    if 0 < st.Nphot then
      (takePad st.Nphot (photRows.getD r [])).map (· * COEFF_SCALE)
    else []
  let bgRow := fun (i : ℕ) =>
    (if fb then takePad nspec (st.A_bgm.getD i [])
     else List.replicate nspec 0) ++ photPart i
  let tmplRow := fun (i : ℕ) =>
    (takePad nspec (pr.projRow i z)).map (· * COEFF_SCALE) ++
      photPart (st.N + i)
  (List.range st.N).map bgRow ++ (List.range tmpls.length).map tmplRow

/-- The additive pedestal (lines 679-685): 0.04 when fitting a background
with the nnls or lstsq solvers, 0 otherwise. -/
def pedestalOf (fb : Bool) (fitter : Fitter) : ℚ :=
  if fb then
    (match fitter with
     | Fitter.nnls => 1 / 25
     | Fitter.lstsq => 1 / 25
     | Fitter.bvls => 0)
  else 0

/-- The oktemp row mask (line 693): rows whose entries sum to zero are
dropped before solving. -/
def oktempOf (a : List (List ℚ)) : List Bool :=
  a.map (fun row => decide (row.sum ≠ 0))

/-- The reduced noise-weighted design matrix Ax (lines 696-709): keep the
oktemp rows of A, weight columns by the masked inverse sigma array, and
apply the optional pscale flux rescaling to every row, dividing it back
out of the background rows. -/
def axOf (pr : Oracles) (st : GroupState) (z : ℚ) (tmpls : List Tmpl)
    (fb : Bool) : List (List ℚ) :=
  let a := buildA pr st z tmpls fb
  let sivm := maskSelect st.sivarf st.fit_mask
  let ax0 := (maskRows a (oktempOf a)).map (fun r => zipMul r sivm)
  match st.pscale with
  | none => ax0
  | some ps =>
      let sc0 := computeScaleArray ps (maskSelect st.wavef st.fit_mask)
      let sc := if 0 < st.Nphot then setTail sc0 st.Nphot 1 else sc0
      let ax1 := ax0.map (fun r => zipMul r sc)
      if fb then
        mapWithIndex (fun i r => if i < st.N then zipDiv r sc else r) ax1
      else ax1

/-- The masked data vector fed to the solver (line 715):
((scif + pedestal*is_spec) * sivarf)[fit_mask]. -/
def dataOf (st : GroupState) (fb : Bool) (fitter : Fitter) : List ℚ :=
  maskSelect
    (zipMul (zipAdd st.scif
      ((specIndicator st).map (· * pedestalOf fb fitter))) st.sivarf)
    st.fit_mask

/-- Lower solver bounds (lines 631-643): -0.05 for backgrounds, 0 for
templates, minus infinity (none) for emission line templates. -/
def solverLower (n : ℕ) (tmpls : List Tmpl) : List (Option ℚ) :=
  List.replicate n (some (-(1 / 20) : ℚ)) ++
    tmpls.map (fun t => if t.isLine then none else some 0)

/-- Upper solver bounds (lines 633-634): 0.05 for backgrounds, plus
infinity (none) for templates. -/
def solverUpper (n : ℕ) (tmpls : List Tmpl) : List (Option ℚ) :=
  List.replicate n (some ((1 / 20) : ℚ)) ++
    List.replicate tmpls.length none

/-- The packed coefficient vector returned by the selected solver
(lines 721-728); the bounds arrays are reduced by oktemp exactly as the
source does for the bvls branch. -/
def rawCoeffs (pr : Oracles) (st : GroupState) (z : ℚ) (tmpls : List Tmpl)
    (fitter : Fitter) (fb : Bool) : List ℚ :=
  let ax := axOf pr st z tmpls fb
  let data := dataOf st fb fitter
  match fitter with
  | Fitter.nnls => pr.nnlsSolve ax data
  | Fitter.lstsq => pr.lstsqSolve ax data
  | Fitter.bvls =>
      let ok := oktempOf (buildA pr st z tmpls fb)
      pr.bvlsSolve ax data (maskSelectO (solverLower st.N tmpls) ok)
        (maskSelectO (solverUpper st.N tmpls) ok)

/-- The packed coefficients after the in-place pedestal subtraction from
the first N entries (line 735), executed only when fitting a
background. -/
def adjustedCoeffs (pr : Oracles) (st : GroupState) (z : ℚ)
    (tmpls : List Tmpl) (fitter : Fitter) (fb : Bool) : List ℚ :=
  let raw := rawCoeffs pr st z tmpls fitter fb
  if fb then subFront st.N raw (pedestalOf fb fitter) else raw

/-- The background model vector (lines 731-737): the dot product of the
first N packed coefficients with the first N design rows, minus the
pedestal, with photometric positions zeroed; a zero vector when no
background is fit. -/
def backgroundOf (pr : Oracles) (st : GroupState) (z : ℚ)
    (tmpls : List Tmpl) (fitter : Fitter) (fb : Bool) : List ℚ :=
  if fb then
    let a := buildA pr st z tmpls fb
    let raw := rawCoeffs pr st z tmpls fitter fb
    let b1 := (matVecLeft (raw.take st.N) (a.take st.N) st.Nmask).map
      (· - pedestalOf fb fitter)
    if 0 < st.Nphot then setTail b1 st.Nphot 0 else b1
  else List.replicate (maskSelect st.scif st.fit_mask).length 0

/-- The full template model vector (lines 740-743): the packed template
coefficients dotted with the unweighted reduced design rows. -/
def modelOf (pr : Oracles) (st : GroupState) (z : ℚ) (tmpls : List Tmpl)
    (fitter : Fitter) (fb : Bool) : List ℚ :=
  let ax := axOf pr st z tmpls fb
  let sivm := maskSelect st.sivarf st.fit_mask
  let raw := rawCoeffs pr st z tmpls fitter fb
  if fb then
    matVecLeft (raw.drop st.N)
      ((ax.drop st.N).map (fun r => zipDiv r sivm)) sivm.length
  else
    matVecLeft raw (ax.map (fun r => zipDiv r sivm)) sivm.length

/-- The chi squared of the fit (lines 746-748): the weighted sum of
squared residuals after removing model and background. -/
def chi2Of (pr : Oracles) (st : GroupState) (z : ℚ) (tmpls : List Tmpl)
    (fitter : Fitter) (fb : Bool) : ℚ :=
  let scm := maskSelect st.scif st.fit_mask
  let sivm := maskSelect st.sivarf st.fit_mask
  let wm := maskSelect st.weightf st.fit_mask
  let resid := zipSub (zipSub scm (modelOf pr st z tmpls fitter fb))
    (backgroundOf pr st z tmpls fitter fb)
  (zipMul (zipMul (resid.map (· ^ 2)) (sivm.map (· ^ 2))) wm).sum

/-- Positions of the True entries of a mask, counted in order: the rank
map used to scatter a reduced covariance back to full size. -/
def maskRanksGo : ℕ → List Bool → List (Option ℕ)
  | _, [] => []
  | k, true :: bs => some k :: maskRanksGo (k + 1) bs
  | k, false :: bs => none :: maskRanksGo k bs

/-- Rank map of a boolean mask. -/
def maskRanks (mask : List Bool) : List (Option ℕ) :=
  maskRanksGo 0 mask

/-- Modelled from the spec: utils.fill_masked_covar is called by
fitting.py but lives outside the provided sources.  Per the spec, rows
dropped by the oktemp mask are re-expanded to full size with zeros, so the
reduced covariance entries are placed at pairs of True mask positions and
every other entry is zero. -/
def fillMaskedCovar (small : List (List ℚ)) (mask : List Bool) :
    List (List ℚ) :=
  let rk := maskRanks mask
  rk.map (fun oi => rk.map (fun oj =>
    match oi, oj with
    | some a, some b => (small.getD a []).getD b 0
    | _, _ => 0))

/-- The covariance matrix and diagonal errors (lines 753-783): inverse
Gram matrix of the reduced design matrix expanded to full size, optionally
recomputed after dropping zero coefficients when get_uncertainties == 2;
any inversion failure degrades both to zero.  The first component is the
covariance, the second the sqrt of its diagonal. -/
def covarPair (pr : Oracles) (st : GroupState) (z : ℚ) (tmpls : List Tmpl)
    (fitter : Fitter) (fb : Bool) (gu : ℕ) : List (List ℚ) × List ℚ :=
  let n := st.N + tmpls.length
  if gu = 0 then (zeroMat n, List.replicate n 0)
  else
    let ax := axOf pr st z tmpls fb
    let ok := oktempOf (buildA pr st z tmpls fb)
    match pr.matInv (gramOf ax) with
    | none => (zeroMat n, List.replicate n 0)
    | some covar_i =>
        let covar1 := fillMaskedCovar covar_i ok
        let nz := (adjustedCoeffs pr st z tmpls fitter fb).map
          (fun c => decide (c ≠ 0))
        if gu = 2 ∧ 0 < countTrue nz then
          match pr.matInv (gramOf (maskRows ax nz)) with
          | none => (zeroMat n, List.replicate n 0)
          | some mcovar_i =>
              let mc := fillMaskedCovar (fillMaskedCovar mcovar_i nz) ok
              (mc, (diagOf mc).map pr.sqrtF)
        else (covar1, (diagOf covar1).map pr.sqrtF)

/-- Scale the template block covar[n:,n:] by a constant (line 795). -/
def scaleLowerBlock (m : List (List ℚ)) (n : ℕ) (s : ℚ) :
    List (List ℚ) :=
  mapWithIndex (fun i row =>
    if i < n then row
    else mapWithIndex (fun j v => if j < n then v else v * s) row) m

/-- GroupFitter.xfit_at_z (lines 586-797): fit the templates at redshift z
with the selected solver, returning chi squared, the full-size coefficient
vector rebuilt from the oktemp packing with template entries rescaled by
COEFF_SCALE, the diagonal errors, and the covariance with its template
block rescaled by COEFF_SCALE squared.  gu models get_uncertainties
(0 = False, 1 = True, 2 = masked recompute). -/
def xfit_at_z (pr : Oracles) (st : GroupState) (z : ℚ) (tmpls : List Tmpl)
    (fitter : Fitter) (fb : Bool) (gu : ℕ) : FitAtZOut :=
  let ok := oktempOf (buildA pr st z tmpls fb)
  let c0 := scatter ok (adjustedCoeffs pr st z tmpls fitter fb)
  let cv := covarPair pr st z tmpls fitter fb gu
  { chi2 := chi2Of pr st z tmpls fitter fb
    coeffs := c0.take st.N ++ (c0.drop st.N).map (· * COEFF_SCALE)
    coeffs_err := cv.2.take st.N ++ (cv.2.drop st.N).map (· * COEFF_SCALE)
    covar := scaleLowerBlock cv.1 st.N (COEFF_SCALE ^ 2) }

/-! ## xfit_redshift: the zr dispatch and the zoom/merge step
(fitting.py lines 799-943) -/

/-- The zr argument of xfit_redshift as the source distinguishes it: the
identity test "zr is 0" matches only the literal integer 0; any two
element redshift range is the other case. -/
inductive ZrArg
  | intZero
  | pair (z0 z1 : ℚ)
deriving Repr

/-- Head of xfit_redshift (lines 809-814): the sentinel zr = 0 switches on
stellar mode, replaces the range by [0, 0.01] and forces the nnls fitter;
any explicit range leaves the fitter unchanged.  Returns (stars, range,
fitter). -/
def xfitRedshiftHead (zr : ZrArg) (fitter : Fitter) :
    Bool × (ℚ × ℚ) × Fitter :=
  match zr with
  | ZrArg.intZero => (true, (0, 1 / 100), Fitter.nnls)
  | ZrArg.pair z0 z1 => (false, (z0, z1), fitter)

/-- Vertex of the parabola through three points (lines 902-903):
np.polyfit of degree 2 through exactly three samples is the interpolating
quadratic c0*x^2 + c1*x + c2, and the refined redshift is -c1/(2*c0). -/
def polyfit2Vertex (x0 x1 x2 y0 y1 y2 : ℚ) : ℚ :=
  let d0 := (x0 - x1) * (x0 - x2);
  let d1 := (x1 - x0) * (x1 - x2);
  let d2 := (x2 - x0) * (x2 - x1);
  let c0 := y0 / d0 + y1 / d1 + y2 / d2;
  let c1 := -(y0 * (x1 + x2) / d0 + y1 * (x0 + x2) / d1 +
    y2 * (x0 + x1) / d2);
  -c1 / (2 * c0)

/-- The dense zoom grid (lines 899-906): for every peak index strictly
inside the grid, fit a parabola through the three surrounding chi2
samples and lay an arange of width 2*dz0 on each side of its vertex with
step dz1.  The peak indexes come from the external peakutils call. -/
def zoomPoints (zgrid chi2 : List ℚ) (idxs : List ℕ) (dz0 dz1 : ℚ) :
    List ℚ :=
  idxs.foldl (fun acc ix =>
    if 0 < ix ∧ ix < chi2.length - 1 then
      let zi := polyfit2Vertex (zgrid.getD (ix - 1) 0) (zgrid.getD ix 0)
        (zgrid.getD (ix + 1) 0) (chi2.getD (ix - 1) 0) (chi2.getD ix 0)
        (chi2.getD (ix + 1) 0)
      acc ++ arangeQ (zi - 2 * dz0) (zi + 2 * dz0 + dz1 / 10) dz1
    else acc) []

/-- The parallel fit arrays accumulated over the redshift grid. -/
structure ZFitArrays where
  zgrid : List ℚ
  chi2 : List ℚ
  coeffs : List (List ℚ)
  covar : List (List (List ℚ))

/-- The zoom evaluation and append step (lines 898-937): when at least one
peak was found, stellar mode is off and zooming is enabled, evaluate the
fit (abstracted by evalZ, which stands for the xfit_at_z call) at every
zoom point and append the results to the coarse arrays. -/
def appendZoom (stars zoomFlag : Bool) (idxs : List ℕ) (dz0 dz1 : ℚ)
    (a : ZFitArrays) (evalZ : ℚ → ℚ × List ℚ × List (List ℚ)) :
    ZFitArrays :=
  if 0 < idxs.length ∧ stars = false ∧ zoomFlag = true then
    let zz := zoomPoints a.zgrid a.chi2 idxs dz0 dz1
    { zgrid := a.zgrid ++ zz
      chi2 := a.chi2 ++ zz.map (fun z => (evalZ z).1)
      coeffs := a.coeffs ++ zz.map (fun z => (evalZ z).2.1)
      covar := a.covar ++ zz.map (fun z => (evalZ z).2.2) }
  else a

/-- The final argsort permutation applied to all four arrays at once
(lines 939-943). -/
def sortByZ (a : ZFitArrays) : ZFitArrays :=
  let so := argsortKey a.zgrid
  { zgrid := applyIdx so a.zgrid
    chi2 := applyIdx so a.chi2
    coeffs := applyIdxRows so a.coeffs
    covar := applyIdxMats so a.covar }

/-- The tail of xfit_redshift after the coarse grid loop: the optional
zoom refinement followed by the joint sort of grid, chi2, coefficient and
covariance arrays. -/
def xfitRedshiftTail (stars zoomFlag : Bool) (idxs : List ℕ)
    (dz0 dz1 : ℚ) (a : ZFitArrays)
    (evalZ : ℚ → ℚ × List ℚ × List (List ℚ)) : ZFitArrays :=
  sortByZ (appendZoom stars zoomFlag idxs dz0 dz1 a evalZ)

/-! ## _parse_zfit_output: posterior density and percentiles
(fitting.py lines 982-1063) -/

/-- The stored posterior density (lines 988-1004): pdf proportional to
exp(-0.5*(chi2-chi2.min())/scl_nu) with scl_nu = chi2.min()/DoF, times the
prior linearly interpolated onto the grid when one is supplied, normalized
by its own trapezoidal integral over the grid.  expF is numpy exp. -/
def parsePdf (dof : ℚ) (expF : ℚ → ℚ) (zgrid chi2 : List ℚ)
    (prior : Option (List ℚ × List ℚ)) : List ℚ :=
  let m := listMin chi2
  let scl := m / dof
  let pdf0 := chi2.map (fun c => expF (-(1 / 2) * ((c - m) / scl)))
  let pdf1 :=
    match prior with
    | none => pdf0
    | some pq => zipMul pdf0 (zgrid.map (fun zq => npInterp zq pq.1 pq.2))
  pdf1.map (· / npTrapz pdf1 zgrid)

/-- The percentile extraction (lines 1007-1015): on the fine grid points
where the Akima spline of log pdf is finite (zfineOk, a strictly
increasing subsequence of the external log_zgrid output), integrate
exp(spline) to a normalized cumulative distribution with gradient spacing
and invert it by interpolation at the 2.5/16/50/84/97.5 percent levels.
expF is numpy exp and splF the fitted spline. -/
def percentileStage (expF splF : ℚ → ℚ) (zfineOk : List ℚ) : List ℚ :=
  let w := zfineOk.map (fun zq => expF (splF zq))
  let norm := npTrapz w zfineOk
  let g := npGradient zfineOk
  let cdf := cumsum ((zipMul w g).map (fun t => t / norm))
  [1 / 40, 4 / 25, 1 / 2, 21 / 25, 39 / 40].map
    (fun p => npInterp p cdf zfineOk)

/-! ## Concrete fixtures used to instantiate the theorems -/

/-- Oracle assignment whose solvers return empty coefficient vectors and
whose matrix inversion always fails. -/
def trivOracles : Oracles where
  projRow := fun _ _ => [1]
  interpPhot := fun _ => []
  nnlsSolve := fun _ _ => []
  lstsqSolve := fun _ _ => []
  bvlsSolve := fun _ _ _ _ => []
  matInv := fun _ => none
  sqrtF := fun q => q

/-- Oracle assignment whose nnls solver returns the fixed packed vector
[2, 3]. -/
def solvedOracles : Oracles where
  projRow := fun _ _ => [1]
  interpPhot := fun _ => []
  nnlsSolve := fun _ _ => [2, 3]
  lstsqSolve := fun _ _ => [2, 3]
  bvlsSolve := fun _ _ _ _ => [2, 3]
  matInv := fun _ => none
  sqrtF := fun q => q

/-- A one beam, one masked pixel group state with no photometry. -/
def stEx : GroupState where
  N := 1
  scif := [1]
  sivarf := [1]
  weightf := [1]
  wavef := [1]
  fit_mask := [true]
  isSpec := none
  Nphot := 0
  Nmask := 1
  DoF := 1
  A_bgm := [[1]]
  pscale := none
  photom_flam := []
  photom_eflam := []
  photom_pivot := []
  tempfilt := false

/-- Coarse grid fit arrays around a symmetric chi squared minimum at
redshift 3, used to exercise the zoom merge. -/
def zfitEx : ZFitArrays where
  zgrid := [2, 3, 4]
  chi2 := [5, 4, 5]
  coeffs := [[0], [0], [0]]
  covar := [[[0]], [[0]], [[0]]]

/-- A two point fit array fixture. -/
def zfitSmall : ZFitArrays where
  zgrid := [1, 0]
  chi2 := [7, 8]
  coeffs := [[2], [3]]
  covar := [[[4]], [[5]]]

/-- Constant per redshift evaluation oracle standing for the xfit_at_z
call inside the zoom loop. -/
def evalZEx : ℚ → ℚ × List ℚ × List (List ℚ) :=
  fun _ => (0, [0], [[0]])

/-! ## Shape lemmas -/

theorem takePad_length (n : ℕ) (v : List ℚ) : (takePad n v).length = n := by
  induction n generalizing v with
  | zero => simp [takePad]
  | succ k ih =>
      cases v with
      | nil => simp [takePad, ih]
      | cons x xs => simp [takePad, ih]

theorem scatter_length (m : List Bool) (v : List ℚ) :
    (scatter m v).length = m.length := by
  induction m generalizing v with
  | nil => simp [scatter]
  | cons b bs ih =>
      cases b with
      | true =>
          cases v with
          | nil => simp [scatter, ih]
          | cons x xs => simp [scatter, ih]
      | false => simp [scatter, ih]

theorem mapWithIndex_length (f : ℕ → α → β) (l : List α) :
    (mapWithIndex f l).length = l.length := by
  simp [mapWithIndex]

theorem buildA_length (pr : Oracles) (st : GroupState) (z : ℚ)
    (tmpls : List Tmpl) (fb : Bool) :
    (buildA pr st z tmpls fb).length = st.N + tmpls.length := by
  simp [buildA]

theorem oktempOf_length (a : List (List ℚ)) :
    (oktempOf a).length = a.length := by
  simp [oktempOf]

theorem maskRanksGo_length (k : ℕ) (m : List Bool) :
    (maskRanksGo k m).length = m.length := by
  induction m generalizing k with
  | nil => simp [maskRanksGo]
  | cons b bs ih =>
      cases b with
      | true => simp [maskRanksGo, ih]
      | false => simp [maskRanksGo, ih]

theorem maskRanks_length (m : List Bool) : (maskRanks m).length = m.length :=
  maskRanksGo_length 0 m

theorem fillMaskedCovar_length (small : List (List ℚ)) (mask : List Bool) :
    (fillMaskedCovar small mask).length = mask.length := by
  simp [fillMaskedCovar, maskRanks_length]

theorem fillMaskedCovar_row_length (small : List (List ℚ))
    (mask : List Bool) (row : List ℚ)
    (h : row ∈ fillMaskedCovar small mask) : row.length = mask.length := by
  simp only [fillMaskedCovar, List.mem_map] at h
  obtain ⟨oi, _, hrow⟩ := h
  simp [← hrow, maskRanks_length]

theorem zeroMat_length (n : ℕ) : (zeroMat n).length = n := by
  simp [zeroMat]

theorem zeroMat_row_length (n : ℕ) (row : List ℚ) (h : row ∈ zeroMat n) :
    row.length = n := by
  simp only [zeroMat, List.mem_replicate] at h
  simp [h.2]

theorem covarPair_fst_length (pr : Oracles) (st : GroupState) (z : ℚ)
    (tmpls : List Tmpl) (fitter : Fitter) (fb : Bool) (gu : ℕ) :
    (covarPair pr st z tmpls fitter fb gu).1.length =
      st.N + tmpls.length := by
  unfold covarPair
  split
  · simp [zeroMat_length]
  · cases h : pr.matInv (gramOf (axOf pr st z tmpls fb)) with
    | none => simp [h, zeroMat_length]
    | some covar_i =>
        simp only [h]
        split
        · cases h2 : pr.matInv
            (gramOf (maskRows (axOf pr st z tmpls fb)
              ((adjustedCoeffs pr st z tmpls fitter fb).map
                (fun c => decide (c ≠ 0))))) with
          | none => simp [h2, zeroMat_length]
          | some mc =>
              simp [h2, fillMaskedCovar_length, oktempOf_length,
                buildA_length]
        · simp [fillMaskedCovar_length, oktempOf_length, buildA_length]

theorem covarPair_fst_row_length (pr : Oracles) (st : GroupState) (z : ℚ)
    (tmpls : List Tmpl) (fitter : Fitter) (fb : Bool) (gu : ℕ) :
    ∀ row ∈ (covarPair pr st z tmpls fitter fb gu).1,
      row.length = st.N + tmpls.length := by
  by_cases hgu : gu = 0
  · simp only [covarPair, hgu, if_pos rfl]
    intro row h
    exact zeroMat_row_length _ _ h
  · cases h1 : pr.matInv (gramOf (axOf pr st z tmpls fb)) with
    | none =>
        simp only [covarPair, if_neg hgu, h1]
        intro row h
        exact zeroMat_row_length _ _ h
    | some covar_i =>
        by_cases h2 : gu = 2 ∧ 0 < countTrue
          ((adjustedCoeffs pr st z tmpls fitter fb).map
            (fun c => decide (c ≠ 0)))
        · cases h3 : pr.matInv
            (gramOf (maskRows (axOf pr st z tmpls fb)
              ((adjustedCoeffs pr st z tmpls fitter fb).map
                (fun c => decide (c ≠ 0))))) with
          | none =>
              simp only [covarPair, if_neg hgu, h1, if_pos h2, h3]
              intro row h
              exact zeroMat_row_length _ _ h
          | some mc =>
              simp only [covarPair, if_neg hgu, h1, if_pos h2, h3]
              intro row h
              have := fillMaskedCovar_row_length _ _ _ h
              simpa [oktempOf_length, buildA_length] using this
        · simp only [covarPair, if_neg hgu, h1, if_neg h2]
          intro row h
          have := fillMaskedCovar_row_length _ _ _ h
          simpa [oktempOf_length, buildA_length] using this

theorem covarPair_snd_length (pr : Oracles) (st : GroupState) (z : ℚ)
    (tmpls : List Tmpl) (fitter : Fitter) (fb : Bool) (gu : ℕ) :
    (covarPair pr st z tmpls fitter fb gu).2.length =
      st.N + tmpls.length := by
  unfold covarPair
  split
  · simp
  · cases h : pr.matInv (gramOf (axOf pr st z tmpls fb)) with
    | none => simp [h]
    | some covar_i =>
        simp only [h]
        split
        · cases h2 : pr.matInv
            (gramOf (maskRows (axOf pr st z tmpls fb)
              ((adjustedCoeffs pr st z tmpls fitter fb).map
                (fun c => decide (c ≠ 0))))) with
          | none => simp [h2]
          | some mc =>
              simp [h2, diagOf, mapWithIndex_length, fillMaskedCovar_length,
                oktempOf_length, buildA_length]
        · simp [diagOf, mapWithIndex_length, fillMaskedCovar_length,
            oktempOf_length, buildA_length]

theorem scaleLowerBlock_length (m : List (List ℚ)) (n : ℕ) (s : ℚ) :
    (scaleLowerBlock m n s).length = m.length := by
  simp [scaleLowerBlock, mapWithIndex_length]

theorem scaleLowerBlock_row_length (m : List (List ℚ)) (n : ℕ) (s : ℚ)
    (row : List ℚ) (h : row ∈ scaleLowerBlock m n s) :
    ∃ r ∈ m, row.length = r.length := by
  simp only [scaleLowerBlock, mapWithIndex, List.mem_iff_get,
    List.get_eq_getElem, List.getElem_zipWith] at h
  obtain ⟨i, hrow⟩ := h
  have hi : (i : ℕ) < m.length := by
    have := i.isLt
    simpa [List.length_zipWith] using this
  refine ⟨m[(i : ℕ)], List.getElem_mem hi, ?_⟩
  rw [← hrow]
  split
  · rfl
  · simp [mapWithIndex_length]

/-! ## Small list access lemmas -/

theorem getD_zero_or_mem (l : List ℚ) (j : ℕ) :
    l.getD j 0 = 0 ∨ l.getD j 0 ∈ l := by
  induction l generalizing j with
  | nil => simp
  | cons x xs ih =>
      cases j with
      | zero => simp
      | succ k =>
          rw [List.getD_cons_succ]
          rcases ih k with h | h
          · exact Or.inl h
          · exact Or.inr (List.mem_cons_of_mem _ h)

theorem getD_take_of_lt (l : List α) (n i : ℕ) (d : α) (h : i < n) :
    (l.take n).getD i d = l.getD i d := by
  induction l generalizing n i with
  | nil => simp
  | cons x xs ih =>
      cases n with
      | zero => omega
      | succ m =>
          cases i with
          | zero => simp
          | succ k =>
              simp only [List.take_succ_cons, List.getD_cons_succ]
              exact ih m k (by omega)

theorem getD_append_left (l₁ l₂ : List α) (i : ℕ) (d : α)
    (h : i < l₁.length) : (l₁ ++ l₂).getD i d = l₁.getD i d := by
  induction l₁ generalizing i with
  | nil => simp at h
  | cons x xs ih =>
      cases i with
      | zero => simp
      | succ k =>
          simp only [List.cons_append, List.getD_cons_succ]
          exact ih k (by simpa using Nat.lt_of_succ_lt_succ h)

theorem getD_append_right (l₁ l₂ : List α) (i : ℕ) (d : α)
    (h : l₁.length ≤ i) :
    (l₁ ++ l₂).getD i d = l₂.getD (i - l₁.length) d := by
  induction l₁ generalizing i with
  | nil => simp
  | cons x xs ih =>
      cases i with
      | zero => simp at h
      | succ k =>
          simp only [List.cons_append, List.getD_cons_succ, List.length_cons]
          rw [ih k (by simpa using Nat.le_of_succ_le_succ h)]
          congr 1
          omega

theorem takePad_getD (n : ℕ) (v : List ℚ) (i : ℕ) (hi : i < n)
    (hv : i < v.length) : (takePad n v).getD i 0 = v.getD i 0 := by
  induction n generalizing v i with
  | zero => omega
  | succ m ih =>
      cases v with
      | nil => simp at hv
      | cons x xs =>
          cases i with
          | zero => simp [takePad]
          | succ k =>
              simp only [takePad, List.getD_cons_succ]
              exact ih xs k (by omega) (by simpa using hv)

theorem subFront_length (n : ℕ) (l : List ℚ) (p : ℚ) :
    (subFront n l p).length = l.length := by
  induction n generalizing l with
  | zero => simp [subFront]
  | succ m ih =>
      cases l with
      | nil => simp [subFront]
      | cons x xs => simp [subFront, ih]

theorem subFront_drop (n : ℕ) (l : List ℚ) (p : ℚ) :
    (subFront n l p).drop n = l.drop n := by
  induction n generalizing l with
  | zero => simp [subFront]
  | succ m ih =>
      cases l with
      | nil => simp [subFront]
      | cons x xs => simpa [subFront] using ih xs

theorem subFront_getD (n : ℕ) (l : List ℚ) (p : ℚ) (i : ℕ) (hi : i < n)
    (hl : i < l.length) : (subFront n l p).getD i 0 = l.getD i 0 - p := by
  induction n generalizing l i with
  | zero => omega
  | succ m ih =>
      cases l with
      | nil => simp at hl
      | cons x xs =>
          cases i with
          | zero => simp [subFront]
          | succ k =>
              simp only [subFront, List.getD_cons_succ]
              exact ih xs k (by omega) (by simpa using hl)

theorem scatter_mem (m : List Bool) (v : List ℚ) (x : ℚ)
    (h : x ∈ scatter m v) : x = 0 ∨ x ∈ v := by
  induction m generalizing v with
  | nil => simp [scatter] at h
  | cons b bs ih =>
      cases b with
      | true =>
          cases v with
          | nil =>
              simp only [scatter, List.mem_cons] at h
              rcases h with h | h
              · exact Or.inl h
              · exact (ih [] h).imp id (by simp)
          | cons y ys =>
              simp only [scatter, List.mem_cons] at h
              rcases h with h | h
              · exact Or.inr (by simp [h])
              · rcases ih ys h with h' | h'
                · exact Or.inl h'
                · exact Or.inr (List.mem_cons_of_mem _ h')
      | false =>
          simp only [scatter, List.mem_cons] at h
          rcases h with h | h
          · exact Or.inl h
          · exact ih v h

theorem scatter_replicate_true (n : ℕ) (m : List Bool) (v : List ℚ) :
    scatter (List.replicate n true ++ m) v =
      takePad n v ++ scatter m (v.drop n) := by
  induction n generalizing v with
  | zero => simp [takePad]
  | succ k ih =>
      cases v with
      | nil =>
          rw [List.replicate_succ, List.cons_append]
          show 0 :: scatter (List.replicate k true ++ m) [] =
            (0 :: takePad k []) ++ scatter m []
          rw [ih []]
          simp
      | cons x xs =>
          rw [List.replicate_succ, List.cons_append]
          show x :: scatter (List.replicate k true ++ m) xs =
            (x :: takePad k xs) ++ scatter m (xs.drop k)
          rw [ih xs]
          simp

theorem scaleLowerBlock_zeroMat (n nb : ℕ) (s : ℚ) :
    scaleLowerBlock (zeroMat n) nb s = zeroMat n := by
  apply List.ext_getElem
  · simp [scaleLowerBlock_length, zeroMat_length]
  · intro i h1 h2
    have hi : i < n := by simpa [zeroMat_length] using h2
    simp only [scaleLowerBlock, mapWithIndex, List.getElem_zipWith,
      List.getElem_range, zeroMat, List.getElem_replicate]
    split
    · rfl
    · apply List.ext_getElem
      · simp
      · intro j hj1 hj2
        simp only [List.getElem_zipWith, List.getElem_range,
          List.getElem_replicate]
        split
        · rfl
        · exact zero_mul s

/-! ## C1: output sizes of xfit_at_z -/

/-- C1 (amended): for every oracle assignment, group state, redshift,
template set, fitter choice, background flag and uncertainty mode, the
coefficient vector returned by xfit_at_z has length N + N_templates and
the covariance is square of that same size, regardless of how many design
rows the oktemp mask dropped.  The background slots are present, as
zeros, even when fit_background is False. -/
theorem xfit_at_z_output_sizes (pr : Oracles) (st : GroupState) (z : ℚ)
    (tmpls : List Tmpl) (fitter : Fitter) (fb : Bool) (gu : ℕ) :
    (xfit_at_z pr st z tmpls fitter fb gu).coeffs.length =
        st.N + tmpls.length ∧
      (xfit_at_z pr st z tmpls fitter fb gu).covar.length =
        st.N + tmpls.length ∧
      ∀ row ∈ (xfit_at_z pr st z tmpls fitter fb gu).covar,
        row.length = st.N + tmpls.length := by
  refine ⟨?_, ?_, ?_⟩
  · have h := scatter_length (oktempOf (buildA pr st z tmpls fb))
      (adjustedCoeffs pr st z tmpls fitter fb)
    have h2 : (scatter (oktempOf (buildA pr st z tmpls fb))
        (adjustedCoeffs pr st z tmpls fitter fb)).length =
        st.N + tmpls.length := by
      rw [h, oktempOf_length, buildA_length]
    simp only [xfit_at_z, List.length_append, List.length_take,
      List.length_map, List.length_drop, h2]
    omega
  · simp only [xfit_at_z, scaleLowerBlock_length]
    exact covarPair_fst_length pr st z tmpls fitter fb gu
  · intro row h
    simp only [xfit_at_z] at h
    obtain ⟨r, hr, hlen⟩ := scaleLowerBlock_row_length _ _ _ _ h
    rw [hlen]
    exact covarPair_fst_row_length pr st z tmpls fitter fb gu r hr

/-- C1 counterexample: with fit_background = False, one beam and one
template, the returned coefficient vector has length 2 = N + N_templates,
not N_templates = 1 as the claim reads for the background-off case. -/
theorem xfit_at_z_length_counterexample :
    (xfit_at_z trivOracles stEx 0 [Tmpl.mk false] Fitter.nnls false
        0).coeffs.length = 2 ∧
      ([Tmpl.mk false] : List Tmpl).length = 1 := by
  constructor
  · have h := scatter_length (oktempOf (buildA trivOracles stEx 0
      [Tmpl.mk false] false))
      (adjustedCoeffs trivOracles stEx 0 [Tmpl.mk false] Fitter.nnls false)
    have h2 : (scatter (oktempOf (buildA trivOracles stEx 0
        [Tmpl.mk false] false))
        (adjustedCoeffs trivOracles stEx 0 [Tmpl.mk false] Fitter.nnls
          false)).length = 2 := by
      rw [h, oktempOf_length, buildA_length]
      rfl
    simp only [xfit_at_z, List.length_append, List.length_take,
      List.length_map, List.length_drop, h2]
    rfl
  · rfl

/-! ## C4: covariance failure degrades to a zero matrix -/

/-- C4: when uncertainties are requested and the inversion of the Gram
matrix of the reduced design matrix fails, xfit_at_z still returns, with
the all-zero (N + N_templates) square covariance and zero errors, and
with exactly the same chi squared and coefficients as a run that never
asks for uncertainties. -/
theorem xfit_at_z_covar_failure_degrades (pr : Oracles) (st : GroupState)
    (z : ℚ) (tmpls : List Tmpl) (fitter : Fitter) (fb : Bool) (gu : ℕ)
    (hgu : gu ≠ 0)
    (hinv : pr.matInv (gramOf (axOf pr st z tmpls fb)) = none) :
    (xfit_at_z pr st z tmpls fitter fb gu).covar =
        zeroMat (st.N + tmpls.length) ∧
      (xfit_at_z pr st z tmpls fitter fb gu).coeffs_err =
        List.replicate (st.N + tmpls.length) 0 ∧
      (xfit_at_z pr st z tmpls fitter fb gu).chi2 =
        (xfit_at_z pr st z tmpls fitter fb 0).chi2 ∧
      (xfit_at_z pr st z tmpls fitter fb gu).coeffs =
        (xfit_at_z pr st z tmpls fitter fb 0).coeffs := by
  have hcv : covarPair pr st z tmpls fitter fb gu =
      (zeroMat (st.N + tmpls.length),
        List.replicate (st.N + tmpls.length) 0) := by
    simp [covarPair, if_neg hgu, hinv]
  refine ⟨?_, ?_, rfl, rfl⟩
  · simp only [xfit_at_z, hcv]
    exact scaleLowerBlock_zeroMat _ _ _
  · simp only [xfit_at_z, hcv, List.take_replicate, List.drop_replicate,
      List.map_replicate, zero_mul]
    rw [show min st.N (st.N + tmpls.length) = st.N by omega,
      show st.N + tmpls.length - st.N = tmpls.length by omega,
      ← List.replicate_add]

/-- C4 witness: a concrete run whose matrix inversion oracle always
fails. -/
theorem xfit_at_z_covar_failure_degrades_witness :
    (xfit_at_z trivOracles stEx 0 [Tmpl.mk false] Fitter.nnls false
        1).covar = zeroMat 2 ∧
      (xfit_at_z trivOracles stEx 0 [Tmpl.mk false] Fitter.nnls false
        1).coeffs_err = List.replicate 2 0 ∧
      (xfit_at_z trivOracles stEx 0 [Tmpl.mk false] Fitter.nnls false
        1).chi2 =
        (xfit_at_z trivOracles stEx 0 [Tmpl.mk false] Fitter.nnls false
          0).chi2 ∧
      (xfit_at_z trivOracles stEx 0 [Tmpl.mk false] Fitter.nnls false
        1).coeffs =
        (xfit_at_z trivOracles stEx 0 [Tmpl.mk false] Fitter.nnls false
          0).coeffs :=
  xfit_at_z_covar_failure_degrades trivOracles stEx 0 [Tmpl.mk false]
    Fitter.nnls false 1 (by decide) rfl

/-! ## Sorting lemmas for the zoom merge -/

theorem argsortKey_sorted (vals : List ℚ) :
    List.Sorted (idxRel vals) (argsortKey vals) :=
  List.sorted_insertionSort _ _

theorem argsortKey_perm (vals : List ℚ) :
    (argsortKey vals).Perm (List.range vals.length) :=
  List.perm_insertionSort _ _

theorem argsortKey_length (vals : List ℚ) :
    (argsortKey vals).length = vals.length := by
  rw [(argsortKey_perm vals).length_eq, List.length_range]

theorem applyIdx_argsort_sorted (vals : List ℚ) :
    (applyIdx (argsortKey vals) vals).Sorted (· ≤ ·) := by
  have h := argsortKey_sorted vals
  exact List.Pairwise.map _ (fun a b hab => by
    rcases hab with h1 | ⟨h1, _⟩
    · exact le_of_lt h1
    · exact le_of_eq h1) h

theorem range_map_zip4 {α β γ δ : Type} (z : List α) (c : List β)
    (co : List γ) (cv : List δ) (da : α) (db : β) (dc : γ) (dd : δ)
    (h1 : c.length = z.length) (h2 : co.length = z.length)
    (h3 : cv.length = z.length) :
    (List.range z.length).map
        (fun i => (z.getD i da,
          (c.getD i db, (co.getD i dc, cv.getD i dd)))) =
      z.zip (c.zip (co.zip cv)) := by
  induction z generalizing c co cv with
  | nil =>
      have hc : c = [] := List.length_eq_zero.mp (by simpa using h1)
      have hco : co = [] := List.length_eq_zero.mp (by simpa using h2)
      have hcv : cv = [] := List.length_eq_zero.mp (by simpa using h3)
      subst hc hco hcv
      simp
  | cons a zs ih =>
      cases c with
      | nil => simp at h1
      | cons b cs =>
          cases co with
          | nil => simp at h2
          | cons g cos =>
              cases cv with
              | nil => simp at h3
              | cons d cvs =>
                  rw [List.length_cons, List.range_succ_eq_map,
                    List.map_cons, List.map_map]
                  have hfun :
                      ((fun i => ((a :: zs).getD i da,
                        ((b :: cs).getD i db,
                          ((g :: cos).getD i dc,
                            (d :: cvs).getD i dd)))) ∘ Nat.succ) =
                      (fun i => (zs.getD i da,
                        (cs.getD i db, (cos.getD i dc, cvs.getD i dd)))) := by
                    funext i
                    simp [List.getD_cons_succ]
                  rw [hfun, ih cs cos cvs (by simpa using h1)
                    (by simpa using h2) (by simpa using h3)]
                  simp

theorem sortByZ_zgrid_sorted (a : ZFitArrays) :
    (sortByZ a).zgrid.Sorted (· ≤ ·) :=
  applyIdx_argsort_sorted a.zgrid

theorem sortByZ_zip_perm (a : ZFitArrays)
    (h1 : a.chi2.length = a.zgrid.length)
    (h2 : a.coeffs.length = a.zgrid.length)
    (h3 : a.covar.length = a.zgrid.length) :
    ((sortByZ a).zgrid.zip
        ((sortByZ a).chi2.zip ((sortByZ a).coeffs.zip
          (sortByZ a).covar))).Perm
      (a.zgrid.zip (a.chi2.zip (a.coeffs.zip a.covar))) := by
  show ((applyIdx (argsortKey a.zgrid) a.zgrid).zip
      ((applyIdx (argsortKey a.zgrid) a.chi2).zip
        ((applyIdxRows (argsortKey a.zgrid) a.coeffs).zip
          (applyIdxMats (argsortKey a.zgrid) a.covar)))).Perm _
  rw [applyIdx, applyIdx, applyIdxRows, applyIdxMats,
    List.zip_map', List.zip_map', List.zip_map']
  have hperm := (argsortKey_perm a.zgrid).map
    (fun i => (a.zgrid.getD i 0,
      (a.chi2.getD i 0, (a.coeffs.getD i [], a.covar.getD i []))))
  rwa [range_map_zip4 a.zgrid a.chi2 a.coeffs a.covar 0 0 [] [] h1 h2 h3]
    at hperm

/-! ## C2: the zoom merge is sorted and index aligned -/

/-- C2 (amended): after the zoom step appends its refinement points and
the four arrays are permuted by the same argsort, the returned redshift
grid is sorted nondecreasing and the (zgrid, chi2, coeffs, covar) tuples
are exactly a permutation of the pre-sort tuples, so the arrays stay
index aligned.  The source never deduplicates, so the sorted grid need
not be strictly increasing: a zoom point that coincides with a coarse
grid point survives as a duplicate. -/
theorem zoom_merge_sorted_aligned (stars zoomFlag : Bool) (idxs : List ℕ)
    (dz0 dz1 : ℚ) (a : ZFitArrays)
    (evalZ : ℚ → ℚ × List ℚ × List (List ℚ))
    (h1 : a.chi2.length = a.zgrid.length)
    (h2 : a.coeffs.length = a.zgrid.length)
    (h3 : a.covar.length = a.zgrid.length) :
    (xfitRedshiftTail stars zoomFlag idxs dz0 dz1 a evalZ).zgrid.Sorted
        (· ≤ ·) ∧
      ((xfitRedshiftTail stars zoomFlag idxs dz0 dz1 a evalZ).zgrid.zip
          ((xfitRedshiftTail stars zoomFlag idxs dz0 dz1 a
            evalZ).chi2.zip
            ((xfitRedshiftTail stars zoomFlag idxs dz0 dz1 a
              evalZ).coeffs.zip
              (xfitRedshiftTail stars zoomFlag idxs dz0 dz1 a
                evalZ).covar))).Perm
        ((appendZoom stars zoomFlag idxs dz0 dz1 a evalZ).zgrid.zip
          ((appendZoom stars zoomFlag idxs dz0 dz1 a evalZ).chi2.zip
            ((appendZoom stars zoomFlag idxs dz0 dz1 a
              evalZ).coeffs.zip
              (appendZoom stars zoomFlag idxs dz0 dz1 a evalZ).covar))) := by
  have hm1 : (appendZoom stars zoomFlag idxs dz0 dz1 a evalZ).chi2.length =
      (appendZoom stars zoomFlag idxs dz0 dz1 a evalZ).zgrid.length := by
    unfold appendZoom
    split
    · simp [h1]
    · exact h1
  have hm2 : (appendZoom stars zoomFlag idxs dz0 dz1 a
      evalZ).coeffs.length =
      (appendZoom stars zoomFlag idxs dz0 dz1 a evalZ).zgrid.length := by
    unfold appendZoom
    split
    · simp [h2]
    · exact h2
  have hm3 : (appendZoom stars zoomFlag idxs dz0 dz1 a evalZ).covar.length =
      (appendZoom stars zoomFlag idxs dz0 dz1 a evalZ).zgrid.length := by
    unfold appendZoom
    split
    · simp [h3]
    · exact h3
  exact ⟨sortByZ_zgrid_sorted _, sortByZ_zip_perm _ hm1 hm2 hm3⟩

/-- C2 witness: the merge invariant at a concrete two point grid. -/
theorem zoom_merge_sorted_aligned_witness :
    (xfitRedshiftTail true false [] (1 / 2) (1 / 2) zfitSmall
        evalZEx).zgrid.Sorted (· ≤ ·) ∧
      ((xfitRedshiftTail true false [] (1 / 2) (1 / 2) zfitSmall
          evalZEx).zgrid.zip
          ((xfitRedshiftTail true false [] (1 / 2) (1 / 2) zfitSmall
            evalZEx).chi2.zip
            ((xfitRedshiftTail true false [] (1 / 2) (1 / 2) zfitSmall
              evalZEx).coeffs.zip
              (xfitRedshiftTail true false [] (1 / 2) (1 / 2) zfitSmall
                evalZEx).covar))).Perm
        ((appendZoom true false [] (1 / 2) (1 / 2) zfitSmall
          evalZEx).zgrid.zip
          ((appendZoom true false [] (1 / 2) (1 / 2) zfitSmall
            evalZEx).chi2.zip
            ((appendZoom true false [] (1 / 2) (1 / 2) zfitSmall
              evalZEx).coeffs.zip
              (appendZoom true false [] (1 / 2) (1 / 2) zfitSmall
                evalZEx).covar))) :=
  zoom_merge_sorted_aligned true false [] (1 / 2) (1 / 2) zfitSmall evalZEx
    rfl rfl rfl

/-- C2 counterexample: with the coarse grid [2, 3, 4], a symmetric chi
squared minimum at the middle point and zoom steps dz = [1, 1], the
parabola vertex is exactly 3 and the zoom arange [1, 2, 3, 4, 5]
duplicates the coarse points, so the merged sorted grid
[1, 2, 2, 3, 3, 4, 4, 5] is not strictly increasing: the claimed
deduplication does not happen. -/
theorem zoom_merge_duplicate_counterexample :
    ¬ List.Chain' (· < ·)
      (xfitRedshiftTail false true [1] 1 1 zfitEx evalZEx).zgrid := by
  have hv : polyfit2Vertex 2 3 4 5 4 5 = 3 := by norm_num [polyfit2Vertex]
  have ha : arangeQ (3 - 2) (3 + 2 + 1 / 10) 1 = [1, 2, 3, 4, 5] := by
    rw [show arangeQ (3 - 2) (3 + 2 + 1 / 10) 1 =
          (List.range (((3 + 2 + 1 / 10 - (3 - 2) : ℚ) /
            1).ceil.toNat)).map (fun k => (3 - 2 : ℚ) + k * 1) from rfl]
    rw [show (((3 + 2 + 1 / 10 - (3 - 2) : ℚ) / 1).ceil.toNat) = 5
          from by
        rw [show ((3 + 2 + 1 / 10 - (3 - 2) : ℚ) / 1).ceil = 5
              from by norm_num [Rat.ceil]]
        decide]
    norm_num [List.range_succ]
  have hz : zoomPoints [2, 3, 4] [5, 4, 5] [1] 1 1 = [1, 2, 3, 4, 5] := by
    simp only [zoomPoints, List.foldl_cons, List.foldl_nil]
    rw [if_pos (by norm_num)]
    norm_num [List.getD_cons_zero, List.getD_cons_succ]
    rw [hv, ha]
  have hgrid : (xfitRedshiftTail false true [1] 1 1 zfitEx
      evalZEx).zgrid = [1, 2, 2, 3, 3, 4, 4, 5] := by
    simp only [xfitRedshiftTail, appendZoom, zfitEx]
    rw [if_pos (by norm_num)]
    simp only [hz, sortByZ]
    norm_num [argsortKey, idxRel, List.insertionSort, List.orderedInsert,
      List.range_succ, applyIdx]
  rw [hgrid]
  norm_num [List.chain'_cons]

/-! ## C6: only the zr = 0 sentinel forces stellar mode -/

/-- C6 (amended): when xfit_redshift is called with the literal sentinel
zr = 0 (the Python test "zr is 0"), stellar mode switches on, the fitter
is forced to nnls, and the zoom refinement never executes: the tail of
the fit is exactly the sort of the coarse arrays, whatever the peak list
and zoom flag are. -/
theorem stellar_sentinel_forces_nnls_no_zoom (f : Fitter)
    (zoomFlag : Bool) (idxs : List ℕ) (dz0 dz1 : ℚ) (a : ZFitArrays)
    (evalZ : ℚ → ℚ × List ℚ × List (List ℚ)) :
    (xfitRedshiftHead ZrArg.intZero f).2.2 = Fitter.nnls ∧
      (xfitRedshiftHead ZrArg.intZero f).1 = true ∧
      xfitRedshiftTail (xfitRedshiftHead ZrArg.intZero f).1 zoomFlag idxs
        dz0 dz1 a evalZ = sortByZ a := by
  refine ⟨rfl, rfl, ?_⟩
  unfold xfitRedshiftTail appendZoom
  rw [if_neg]
  intro h
  exact absurd h.2.1 (by simp [xfitRedshiftHead])

/-- C6 counterexample: calling with the explicit range [0, 0.01) (the
very range the sentinel expands to) does not force nnls, and the zoom
step does execute there: the lstsq fitter survives and the returned grid
has grown from 3 to 8 points. -/
theorem stellar_range_counterexample :
    (xfitRedshiftHead (ZrArg.pair 0 (1 / 100)) Fitter.lstsq).2.2 ≠
        Fitter.nnls ∧
      (xfitRedshiftTail (xfitRedshiftHead (ZrArg.pair 0 (1 / 100))
          Fitter.lstsq).1 true [1] 1 1 zfitEx evalZEx).zgrid.length = 8 ∧
      zfitEx.zgrid.length = 3 := by
  refine ⟨by decide, ?_, rfl⟩
  have hv : polyfit2Vertex 2 3 4 5 4 5 = 3 := by norm_num [polyfit2Vertex]
  have ha : arangeQ (3 - 2) (3 + 2 + 1 / 10) 1 = [1, 2, 3, 4, 5] := by
    rw [show arangeQ (3 - 2) (3 + 2 + 1 / 10) 1 =
          (List.range (((3 + 2 + 1 / 10 - (3 - 2) : ℚ) /
            1).ceil.toNat)).map (fun k => (3 - 2 : ℚ) + k * 1) from rfl]
    rw [show (((3 + 2 + 1 / 10 - (3 - 2) : ℚ) / 1).ceil.toNat) = 5
          from by
        rw [show ((3 + 2 + 1 / 10 - (3 - 2) : ℚ) / 1).ceil = 5
              from by norm_num [Rat.ceil]]
        decide]
    norm_num [List.range_succ]
  have hz : zoomPoints [2, 3, 4] [5, 4, 5] [1] 1 1 = [1, 2, 3, 4, 5] := by
    simp only [zoomPoints, List.foldl_cons, List.foldl_nil]
    rw [if_pos (by norm_num)]
    norm_num [List.getD_cons_zero, List.getD_cons_succ]
    rw [hv, ha]
  show (sortByZ (appendZoom false true [1] 1 1 zfitEx evalZEx)).zgrid.length
    = 8
  simp only [appendZoom, zfitEx]
  rw [if_pos (by norm_num)]
  simp only [hz, sortByZ]
  rw [show (applyIdx (argsortKey ([2, 3, 4] ++ [1, 2, 3, 4, 5]))
      ([2, 3, 4] ++ [1, 2, 3, 4, 5])).length =
      (argsortKey ([2, 3, 4] ++ [1, 2, 3, 4, 5])).length from
    List.length_map _ _]
  rw [argsortKey_length]
  rfl

/-! ## Lemmas on the oktemp packing -/

theorem oktemp_take_replicate (a : List (List ℚ)) (n : ℕ)
    (hn : n ≤ a.length) (hbg : ∀ row ∈ a.take n, row.sum ≠ 0) :
    (oktempOf a).take n = List.replicate n true := by
  rw [oktempOf, ← List.map_take]
  refine List.eq_replicate_iff.mpr ⟨?_, ?_⟩
  · simp only [List.length_map, List.length_take]
    omega
  · intro b hb
    simp only [List.mem_map] at hb
    obtain ⟨row, hrow, hbrow⟩ := hb
    rw [← hbrow]
    simpa using hbg row hrow

theorem oktemp_decomp (a : List (List ℚ)) (n : ℕ) (hn : n ≤ a.length)
    (hbg : ∀ row ∈ a.take n, row.sum ≠ 0) :
    oktempOf a = List.replicate n true ++ (oktempOf a).drop n := by
  conv_lhs => rw [← List.take_append_drop n (oktempOf a)]
  rw [oktemp_take_replicate a n hn hbg]

theorem countTrue_replicate_true_append (n : ℕ) (m : List Bool) :
    countTrue (List.replicate n true ++ m) = n + countTrue m := by
  induction n with
  | zero => simp
  | succ k ih =>
      simp only [List.replicate_succ, List.cons_append, countTrue,
        List.countP_cons] at ih ⊢
      simp [ih]
      omega

/-! ## C5: nnls template coefficients are nonnegative -/

/-- C5: whenever xfit_at_z runs with the nnls fitter, a solver honouring
the nnls contract (all returned coefficients nonnegative), and background
rows that survive the oktemp mask when a background is fit, every
returned template coefficient (index at or above N) is nonnegative. -/
theorem xfit_at_z_nnls_nonneg (pr : Oracles) (st : GroupState) (z : ℚ)
    (tmpls : List Tmpl) (fb : Bool) (gu : ℕ)
    (hsolver : ∀ m d x, x ∈ pr.nnlsSolve m d → 0 ≤ x)
    (hbg : fb = true → ∀ row ∈ (buildA pr st z tmpls fb).take st.N,
      row.sum ≠ 0)
    (j : ℕ) (hj : st.N ≤ j) :
    0 ≤ (xfit_at_z pr st z tmpls Fitter.nnls fb gu).coeffs.getD j 0 := by
  have hoklen : (oktempOf (buildA pr st z tmpls fb)).length =
      st.N + tmpls.length := by
    rw [oktempOf_length, buildA_length]
  have hc0len : (scatter (oktempOf (buildA pr st z tmpls fb))
      (adjustedCoeffs pr st z tmpls Fitter.nnls fb)).length =
      st.N + tmpls.length := by
    rw [scatter_length, hoklen]
  have hcoeffs : (xfit_at_z pr st z tmpls Fitter.nnls fb gu).coeffs =
      (scatter (oktempOf (buildA pr st z tmpls fb))
        (adjustedCoeffs pr st z tmpls Fitter.nnls fb)).take st.N ++
      ((scatter (oktempOf (buildA pr st z tmpls fb))
        (adjustedCoeffs pr st z tmpls Fitter.nnls fb)).drop st.N).map
        (· * COEFF_SCALE) := rfl
  rw [hcoeffs]
  have htake : ((scatter (oktempOf (buildA pr st z tmpls fb))
      (adjustedCoeffs pr st z tmpls Fitter.nnls fb)).take st.N).length =
      st.N := by
    rw [List.length_take, hc0len]
    omega
  rw [getD_append_right _ _ j 0 (by rw [htake]; exact hj)]
  rw [htake]
  rcases getD_zero_or_mem (((scatter (oktempOf (buildA pr st z tmpls fb))
      (adjustedCoeffs pr st z tmpls Fitter.nnls fb)).drop st.N).map
      (· * COEFF_SCALE)) (j - st.N) with h | h
  · rw [h]
  · simp only [List.mem_map] at h
    obtain ⟨x, hx, hval⟩ := h
    rw [← hval]
    have hcs : (0 : ℚ) ≤ COEFF_SCALE := by norm_num [COEFF_SCALE]
    refine mul_nonneg ?_ hcs
    have hraw : ∀ y ∈ rawCoeffs pr st z tmpls Fitter.nnls fb, 0 ≤ y := by
      intro y hy
      exact hsolver _ _ y hy
    cases fb with
    | false =>
        have hx2 : x ∈ scatter (oktempOf (buildA pr st z tmpls false))
            (adjustedCoeffs pr st z tmpls Fitter.nnls false) :=
          List.drop_subset _ _ hx
        rcases scatter_mem _ _ _ hx2 with h0 | hmem
        · rw [h0]
        · exact hraw x (by simpa [adjustedCoeffs] using hmem)
    | true =>
        have hdec := oktemp_decomp (buildA pr st z tmpls true) st.N
          (by rw [buildA_length]; omega) (hbg rfl)
        rw [hdec, scatter_replicate_true] at hx
        have htp : (takePad st.N
            (adjustedCoeffs pr st z tmpls Fitter.nnls true)).length =
            st.N := takePad_length _ _
        rw [List.drop_left' htp] at hx
        rcases scatter_mem _ _ _ hx with h0 | hmem
        · rw [h0]
        · have hdrop : (adjustedCoeffs pr st z tmpls Fitter.nnls
              true).drop st.N =
              (rawCoeffs pr st z tmpls Fitter.nnls true).drop st.N := by
            simp only [adjustedCoeffs, if_pos rfl]
            exact subFront_drop _ _ _
          rw [hdrop] at hmem
          exact hraw x (List.drop_subset _ _ hmem)

/-- C5 witness: a concrete nnls call with an empty-output solver. -/
theorem xfit_at_z_nnls_nonneg_witness :
    0 ≤ (xfit_at_z trivOracles stEx 0 [Tmpl.mk false] Fitter.nnls false
      0).coeffs.getD 1 0 :=
  xfit_at_z_nnls_nonneg trivOracles stEx 0 [Tmpl.mk false] false 0
    (by intro m d x hx; simp [trivOracles] at hx)
    (by intro h; cases h) 1 (by decide)

/-! ## Distribution lemmas for the pedestal data shift -/

theorem maskSelect_nil_left (m : List Bool) : maskSelect [] m = [] := by
  simp [maskSelect]

theorem maskSelect_nil_right (l : List ℚ) : maskSelect l [] = [] := by
  simp [maskSelect]

theorem maskSelect_cons (x : ℚ) (xs : List ℚ) (b : Bool) (bs : List Bool) :
    maskSelect (x :: xs) (b :: bs) =
      if b then x :: maskSelect xs bs else maskSelect xs bs := by
  cases b <;> simp [maskSelect]

theorem maskSelect_zipWith (f : ℚ → ℚ → ℚ) (u v : List ℚ)
    (m : List Bool) :
    maskSelect (List.zipWith f u v) m =
      List.zipWith f (maskSelect u m) (maskSelect v m) := by
  induction m generalizing u v with
  | nil => simp [maskSelect_nil_right]
  | cons b bs ih =>
      cases u with
      | nil => simp [maskSelect_nil_left]
      | cons x xs =>
          cases v with
          | nil =>
              rw [List.zipWith_nil_right, maskSelect_nil_left,
                maskSelect_cons]
              cases b <;> simp [maskSelect_nil_right]
          | cons y ys =>
              rw [List.zipWith_cons_cons, maskSelect_cons, maskSelect_cons,
                maskSelect_cons]
              cases b <;> simp [ih]

theorem maskSelect_map (g : ℚ → ℚ) (l : List ℚ) (m : List Bool) :
    maskSelect (l.map g) m = (maskSelect l m).map g := by
  induction m generalizing l with
  | nil => simp [maskSelect_nil_right]
  | cons b bs ih =>
      cases l with
      | nil => simp [maskSelect_nil_left]
      | cons x xs =>
          rw [List.map_cons, maskSelect_cons, maskSelect_cons]
          cases b <;> simp [ih]

theorem zipMul_add_distrib (a b c : List ℚ) :
    zipMul (zipAdd a b) c = zipAdd (zipMul a c) (zipMul b c) := by
  induction a generalizing b c with
  | nil => simp [zipMul, zipAdd]
  | cons x xs ih =>
      cases b with
      | nil => simp [zipMul, zipAdd]
      | cons y ys =>
          cases c with
          | nil => simp [zipMul, zipAdd]
          | cons w ws =>
              simp only [zipMul, zipAdd, List.zipWith_cons_cons] at ih ⊢
              rw [ih]
              ring_nf

theorem maskSelect_zipAdd (u v : List ℚ) (m : List Bool) :
    maskSelect (zipAdd u v) m = zipAdd (maskSelect u m) (maskSelect v m) :=
  maskSelect_zipWith (· + ·) u v m

theorem zipMul_map_left (p : ℚ) (u v : List ℚ) :
    zipMul (u.map (· * p)) v = (zipMul u v).map (· * p) := by
  induction u generalizing v with
  | nil => simp [zipMul]
  | cons x xs ih =>
      cases v with
      | nil => simp [zipMul]
      | cons y ys =>
          simp only [zipMul, List.map_cons, List.zipWith_cons_cons] at ih ⊢
          rw [ih]
          ring_nf

/-! ## C7: the pedestal is added to the data and subtracted back -/

/-- C7: with background fitting on and the nnls or lstsq fitter, the data
vector handed to the solver is the masked weighted science array plus the
0.04 pedestal at the (weighted) spectral indicator positions; after the
solve the same 0.04 is subtracted from each of the N solved background
coefficients in the returned vector, and from the background model, so
the reported background is pedestal free. -/
theorem xfit_at_z_pedestal_shift (pr : Oracles) (st : GroupState) (z : ℚ)
    (tmpls : List Tmpl) (fitter : Fitter) (gu : ℕ)
    (hf : fitter = Fitter.nnls ∨ fitter = Fitter.lstsq)
    (hbg : ∀ row ∈ (buildA pr st z tmpls true).take st.N, row.sum ≠ 0)
    (hlen : (rawCoeffs pr st z tmpls fitter true).length =
      countTrue (oktempOf (buildA pr st z tmpls true))) :
    dataOf st true fitter =
        zipAdd (maskSelect (zipMul st.scif st.sivarf) st.fit_mask)
          ((maskSelect (zipMul (specIndicator st) st.sivarf)
            st.fit_mask).map (· * (1 / 25))) ∧
      (∀ i < st.N,
        (xfit_at_z pr st z tmpls fitter true gu).coeffs.getD i 0 =
          (rawCoeffs pr st z tmpls fitter true).getD i 0 - 1 / 25) ∧
      backgroundOf pr st z tmpls fitter true =
        (if 0 < st.Nphot then
          setTail ((matVecLeft
            ((rawCoeffs pr st z tmpls fitter true).take st.N)
            ((buildA pr st z tmpls true).take st.N) st.Nmask).map
            (· - 1 / 25)) st.Nphot 0
        else (matVecLeft ((rawCoeffs pr st z tmpls fitter true).take st.N)
          ((buildA pr st z tmpls true).take st.N) st.Nmask).map
          (· - 1 / 25)) := by
  have hped : pedestalOf true fitter = 1 / 25 := by
    rcases hf with h | h <;> simp [h, pedestalOf]
  refine ⟨?_, ?_, ?_⟩
  · rw [dataOf, hped, zipMul_add_distrib, zipMul_map_left,
      maskSelect_zipAdd, maskSelect_map]
  · intro i hi
    have hdec := oktemp_decomp (buildA pr st z tmpls true) st.N
      (by rw [buildA_length]; omega) hbg
    have hcount : st.N ≤ countTrue (oktempOf (buildA pr st z tmpls
        true)) := by
      rw [hdec, countTrue_replicate_true_append]
      omega
    have hrawlen : st.N ≤ (rawCoeffs pr st z tmpls fitter true).length := by
      rw [hlen]
      exact hcount
    have hvals : adjustedCoeffs pr st z tmpls fitter true =
        subFront st.N (rawCoeffs pr st z tmpls fitter true) (1 / 25) := by
      rw [adjustedCoeffs, if_pos rfl, hped]
    have hvlen : st.N ≤ (adjustedCoeffs pr st z tmpls fitter
        true).length := by
      rw [hvals, subFront_length]
      exact hrawlen
    have hcoeffs : (xfit_at_z pr st z tmpls fitter true gu).coeffs =
        (scatter (oktempOf (buildA pr st z tmpls true))
          (adjustedCoeffs pr st z tmpls fitter true)).take st.N ++
        ((scatter (oktempOf (buildA pr st z tmpls true))
          (adjustedCoeffs pr st z tmpls fitter true)).drop st.N).map
          (· * COEFF_SCALE) := rfl
    have hc0len : (scatter (oktempOf (buildA pr st z tmpls true))
        (adjustedCoeffs pr st z tmpls fitter true)).length =
        st.N + tmpls.length := by
      rw [scatter_length, oktempOf_length, buildA_length]
    rw [hcoeffs, getD_append_left _ _ i 0
      (by rw [List.length_take, hc0len]; omega)]
    rw [getD_take_of_lt _ _ _ _ hi]
    rw [hdec, scatter_replicate_true]
    rw [getD_append_left _ _ i 0 (by rw [takePad_length]; exact hi)]
    rw [takePad_getD _ _ _ hi (by omega)]
    rw [hvals, subFront_getD _ _ _ _ hi (by omega)]
  · rw [backgroundOf, if_pos rfl, hped]

/-- C7 witness: a concrete background fit with the nnls solver returning
the packed vector [2, 3]. -/
theorem xfit_at_z_pedestal_shift_witness :
    dataOf stEx true Fitter.nnls =
        zipAdd (maskSelect (zipMul stEx.scif stEx.sivarf) stEx.fit_mask)
          ((maskSelect (zipMul (specIndicator stEx) stEx.sivarf)
            stEx.fit_mask).map (· * (1 / 25))) ∧
      (∀ i < stEx.N,
        (xfit_at_z solvedOracles stEx 0 [Tmpl.mk false] Fitter.nnls true
          0).coeffs.getD i 0 =
          (rawCoeffs solvedOracles stEx 0 [Tmpl.mk false] Fitter.nnls
            true).getD i 0 - 1 / 25) ∧
      backgroundOf solvedOracles stEx 0 [Tmpl.mk false] Fitter.nnls true =
        (if 0 < stEx.Nphot then
          setTail ((matVecLeft
            ((rawCoeffs solvedOracles stEx 0 [Tmpl.mk false] Fitter.nnls
              true).take stEx.N)
            ((buildA solvedOracles stEx 0 [Tmpl.mk false] true).take
              stEx.N) stEx.Nmask).map (· - 1 / 25)) stEx.Nphot 0
        else (matVecLeft ((rawCoeffs solvedOracles stEx 0 [Tmpl.mk false]
            Fitter.nnls true).take stEx.N)
          ((buildA solvedOracles stEx 0 [Tmpl.mk false] true).take
            stEx.N) stEx.Nmask).map (· - 1 / 25)) :=
  xfit_at_z_pedestal_shift solvedOracles stEx 0 [Tmpl.mk false]
    Fitter.nnls 0 (Or.inl rfl)
    (by
      intro row hrow
      norm_num [buildA, stEx, solvedOracles, takePad, List.range_succ]
        at hrow
      rw [hrow]
      norm_num)
    (by
      norm_num [rawCoeffs, solvedOracles, oktempOf, buildA, stEx, takePad,
        List.range_succ, countTrue, COEFF_SCALE, List.countP_cons])

/-! ## Trapezoid, interpolation, gradient and cumulative sum lemmas -/

theorem npTrapz_nonneg (y x : List ℚ) (hx : x.Chain' (· < ·))
    (hnn : ∀ k < y.length, 0 ≤ y.getD k 0) : 0 ≤ npTrapz y x := by
  induction y generalizing x with
  | nil => simp [npTrapz]
  | cons y0 ytail ih =>
      cases ytail with
      | nil => simp [npTrapz]
      | cons y1 ys =>
          cases x with
          | nil => simp [npTrapz]
          | cons x0 xtail =>
              cases xtail with
              | nil => simp [npTrapz]
              | cons x1 xs =>
                  show 0 ≤ (x1 - x0) * (y0 + y1) / 2 +
                    npTrapz (y1 :: ys) (x1 :: xs)
                  have hx01 : x0 < x1 := (List.chain'_cons.mp hx).1
                  have h0 : 0 ≤ y0 := by
                    have := hnn 0 (by simp)
                    simpa using this
                  have h1 : 0 ≤ y1 := by
                    have := hnn 1 (by simp)
                    simpa using this
                  have hterm : 0 ≤ (x1 - x0) * (y0 + y1) / 2 := by
                    apply div_nonneg _ (by norm_num)
                    exact mul_nonneg (by linarith) (by linarith)
                  have htail : 0 ≤ npTrapz (y1 :: ys) (x1 :: xs) := by
                    refine ih (x1 :: xs) ((List.chain'_cons.mp hx).2) ?_
                    intro k hk
                    have := hnn (k + 1) (by simpa using hk)
                    simpa using this
                  linarith

theorem npTrapz_pos (y x : List ℚ) (hx : x.Chain' (· < ·))
    (hlen : y.length = x.length) (h2 : 2 ≤ y.length)
    (hnn : ∀ k < y.length, 0 ≤ y.getD k 0)
    (hpos : ∃ k, k < y.length ∧ 0 < y.getD k 0) : 0 < npTrapz y x := by
  induction y generalizing x with
  | nil => simp at h2
  | cons y0 ytail ih =>
      cases ytail with
      | nil => simp at h2
      | cons y1 ys =>
          cases x with
          | nil => simp at hlen
          | cons x0 xtail =>
              cases xtail with
              | nil => simp at hlen
              | cons x1 xs =>
                  show 0 < (x1 - x0) * (y0 + y1) / 2 +
                    npTrapz (y1 :: ys) (x1 :: xs)
                  have hx01 : x0 < x1 := (List.chain'_cons.mp hx).1
                  have h0 : 0 ≤ y0 := by simpa using hnn 0 (by simp)
                  have h1 : 0 ≤ y1 := by simpa using hnn 1 (by simp)
                  have htailnn : 0 ≤ npTrapz (y1 :: ys) (x1 :: xs) := by
                    refine npTrapz_nonneg _ _
                      ((List.chain'_cons.mp hx).2) ?_
                    intro k hk
                    simpa using hnn (k + 1) (by simpa using hk)
                  obtain ⟨k, hk, hkpos⟩ := hpos
                  match k with
                  | 0 =>
                      have hy0 : 0 < y0 := by simpa using hkpos
                      have hterm : 0 < (x1 - x0) * (y0 + y1) / 2 := by
                        apply div_pos _ (by norm_num)
                        exact mul_pos (by linarith) (by linarith)
                      linarith
                  | 1 =>
                      have hy1 : 0 < y1 := by simpa using hkpos
                      have hterm : 0 < (x1 - x0) * (y0 + y1) / 2 := by
                        apply div_pos _ (by norm_num)
                        exact mul_pos (by linarith) (by linarith)
                      linarith
                  | Nat.succ (Nat.succ m) =>
                      have hterm : 0 ≤ (x1 - x0) * (y0 + y1) / 2 := by
                        apply div_nonneg _ (by norm_num)
                        exact mul_nonneg (by linarith) (by linarith)
                      have hys : m < ys.length := by
                        simp only [List.length_cons] at hk
                        omega
                      have htail : 0 < npTrapz (y1 :: ys) (x1 :: xs) := by
                        refine ih (x1 :: xs) ((List.chain'_cons.mp hx).2)
                          (by simpa using hlen) (by simp; omega) ?_ ?_
                        · intro j hj
                          simpa using hnn (j + 1) (by simpa using hj)
                        · refine ⟨m + 1, by simpa using hys, ?_⟩
                          simpa using hkpos
                      linarith

theorem npTrapz_map_div (y x : List ℚ) (c : ℚ) :
    npTrapz (y.map (· / c)) x = npTrapz y x / c := by
  induction y generalizing x with
  | nil => simp [npTrapz]
  | cons y0 ytail ih =>
      cases ytail with
      | nil => simp [npTrapz]
      | cons y1 ys =>
          cases x with
          | nil => simp [npTrapz]
          | cons x0 xtail =>
              cases xtail with
              | nil => simp [npTrapz]
              | cons x1 xs =>
                  show (x1 - x0) * (y0 / c + y1 / c) / 2 +
                      npTrapz ((y1 :: ys).map (· / c)) (x1 :: xs) =
                    ((x1 - x0) * (y0 + y1) / 2 +
                      npTrapz (y1 :: ys) (x1 :: xs)) / c
                  rw [ih (x1 :: xs)]
                  ring

theorem interpGo_nonneg (xs fs : List ℚ) (q x0 f0 : ℚ) (hq : x0 < q)
    (hx : (x0 :: xs).Chain' (· < ·)) (hf0 : 0 ≤ f0)
    (hfs : ∀ v ∈ fs, 0 ≤ v) (hl : xs.length = fs.length) :
    0 ≤ interpGo q x0 f0 xs fs := by
  induction xs generalizing x0 f0 fs with
  | nil => simpa [interpGo] using hf0
  | cons x1 xs2 ih =>
      cases fs with
      | nil => simp at hl
      | cons f1 fs2 =>
          have hx01 : x0 < x1 := (List.chain'_cons.mp hx).1
          show 0 ≤ if q ≤ x1 then f0 + (f1 - f0) * (q - x0) / (x1 - x0)
            else interpGo q x1 f1 xs2 fs2
          split
          · next hqx1 =>
              have hne : x1 - x0 ≠ 0 := by linarith
              have heq : f0 + (f1 - f0) * (q - x0) / (x1 - x0) =
                  (f0 * (x1 - q) + f1 * (q - x0)) / (x1 - x0) := by
                field_simp
                ring
              rw [heq]
              apply div_nonneg _ (by linarith)
              have hf1 : 0 ≤ f1 := hfs f1 (by simp)
              have : 0 ≤ f0 * (x1 - q) := mul_nonneg hf0 (by linarith)
              have : 0 ≤ f1 * (q - x0) := mul_nonneg hf1 (by linarith)
              linarith
          · next hqx1 =>
              refine ih fs2 x1 f1 (by linarith [not_le.mp hqx1])
                ((List.chain'_cons.mp hx).2) (hfs f1 (by simp))
                (fun v hv => hfs v (by simp [hv])) (by simpa using hl)

theorem npInterp_nonneg (q : ℚ) (xp fp : List ℚ)
    (hx : xp.Chain' (· < ·)) (hf : ∀ v ∈ fp, 0 ≤ v)
    (hl : xp.length = fp.length) : 0 ≤ npInterp q xp fp := by
  cases xp with
  | nil => simp [npInterp]
  | cons x0 xs =>
      cases fp with
      | nil => simp [npInterp]
      | cons f0 fs =>
          show 0 ≤ if q ≤ x0 then f0 else interpGo q x0 f0 xs fs
          split
          · exact hf f0 (by simp)
          · next h =>
              exact interpGo_nonneg xs fs q x0 f0 (not_le.mp h) hx
                (hf f0 (by simp)) (fun v hv => hf v (by simp [hv]))
                (by simpa using hl)

theorem interpGo_lb (xs fs : List ℚ) (q x0 f0 : ℚ) (hq : x0 < q)
    (hx : (x0 :: xs).Chain' (· < ·)) (hf : (f0 :: fs).Chain' (· ≤ ·))
    (hl : xs.length = fs.length) : f0 ≤ interpGo q x0 f0 xs fs := by
  induction xs generalizing x0 f0 fs with
  | nil => simp [interpGo]
  | cons x1 xs2 ih =>
      cases fs with
      | nil => simp at hl
      | cons f1 fs2 =>
          have hx01 : x0 < x1 := (List.chain'_cons.mp hx).1
          have hf01 : f0 ≤ f1 := (List.chain'_cons.mp hf).1
          show f0 ≤ if q ≤ x1 then f0 + (f1 - f0) * (q - x0) / (x1 - x0)
            else interpGo q x1 f1 xs2 fs2
          split
          · have : 0 ≤ (f1 - f0) * (q - x0) / (x1 - x0) := by
              apply div_nonneg _ (by linarith)
              exact mul_nonneg (by linarith) (by linarith)
            linarith
          · next hqx1 =>
              have := ih fs2 x1 f1 (by linarith [not_le.mp hqx1])
                ((List.chain'_cons.mp hx).2) ((List.chain'_cons.mp hf).2)
                (by simpa using hl)
              linarith

theorem interpGo_mono (xs fs : List ℚ) (q qq x0 f0 : ℚ) (hq0 : x0 < q)
    (hqq : q ≤ qq) (hx : (x0 :: xs).Chain' (· < ·))
    (hf : (f0 :: fs).Chain' (· ≤ ·)) (hl : xs.length = fs.length) :
    interpGo q x0 f0 xs fs ≤ interpGo qq x0 f0 xs fs := by
  induction xs generalizing x0 f0 fs with
  | nil => simp [interpGo]
  | cons x1 xs2 ih =>
      cases fs with
      | nil => simp at hl
      | cons f1 fs2 =>
          have hx01 : x0 < x1 := (List.chain'_cons.mp hx).1
          have hf01 : f0 ≤ f1 := (List.chain'_cons.mp hf).1
          show (if q ≤ x1 then f0 + (f1 - f0) * (q - x0) / (x1 - x0)
              else interpGo q x1 f1 xs2 fs2) ≤
            (if qq ≤ x1 then f0 + (f1 - f0) * (qq - x0) / (x1 - x0)
              else interpGo qq x1 f1 xs2 fs2)
          by_cases h1 : q ≤ x1
          · by_cases h2 : qq ≤ x1
            · rw [if_pos h1, if_pos h2]
              have : (f1 - f0) * (q - x0) / (x1 - x0) ≤
                  (f1 - f0) * (qq - x0) / (x1 - x0) := by
                apply div_le_div_of_nonneg_right ?_ (by linarith)
                exact mul_le_mul_of_nonneg_left (by linarith) (by linarith)
              linarith
            · rw [if_pos h1, if_neg h2]
              have hnode : f0 + (f1 - f0) * (q - x0) / (x1 - x0) ≤ f1 := by
                have hne : x1 - x0 ≠ 0 := by linarith
                have heq : f0 + (f1 - f0) * (q - x0) / (x1 - x0) =
                    (f0 * (x1 - q) + f1 * (q - x0)) / (x1 - x0) := by
                  field_simp
                  ring
                rw [heq, div_le_iff (by linarith)]
                nlinarith
              have hlb : f1 ≤ interpGo qq x1 f1 xs2 fs2 :=
                interpGo_lb xs2 fs2 qq x1 f1
                  (by linarith [not_le.mp h2])
                  ((List.chain'_cons.mp hx).2) ((List.chain'_cons.mp hf).2)
                  (by simpa using hl)
              linarith
          · have h2 : ¬ qq ≤ x1 := by
              intro h
              exact h1 (le_trans hqq h)
            rw [if_neg h1, if_neg h2]
            exact ih fs2 x1 f1 (by linarith [not_le.mp h1])
              ((List.chain'_cons.mp hx).2) ((List.chain'_cons.mp hf).2)
              (by simpa using hl)

theorem npInterp_mono (q qq : ℚ) (xp fp : List ℚ) (hqq : q ≤ qq)
    (hx : xp.Chain' (· < ·)) (hf : fp.Chain' (· ≤ ·))
    (hl : xp.length = fp.length) :
    npInterp q xp fp ≤ npInterp qq xp fp := by
  cases xp with
  | nil => simp [npInterp]
  | cons x0 xs =>
      cases fp with
      | nil => simp [npInterp]
      | cons f0 fs =>
          show (if q ≤ x0 then f0 else interpGo q x0 f0 xs fs) ≤
            (if qq ≤ x0 then f0 else interpGo qq x0 f0 xs fs)
          by_cases h1 : q ≤ x0
          · by_cases h2 : qq ≤ x0
            · rw [if_pos h1, if_pos h2]
            · rw [if_pos h1, if_neg h2]
              exact interpGo_lb xs fs qq x0 f0 (not_le.mp h2) hx hf
                (by simpa using hl)
          · have h2 : ¬ qq ≤ x0 := fun h => h1 (le_trans hqq h)
            rw [if_neg h1, if_neg h2]
            exact interpGo_mono xs fs q qq x0 f0 (not_le.mp h1) hqq hx hf
              (by simpa using hl)

theorem gradGo_pos (rest : List ℚ) (prev cur : ℚ) (hpc : prev < cur)
    (hch : (cur :: rest).Chain' (· < ·)) :
    ∀ g ∈ gradGo prev cur rest, 0 < g := by
  induction rest generalizing prev cur with
  | nil =>
      intro g hg
      simp only [gradGo, List.mem_singleton] at hg
      rw [hg]
      linarith
  | cons nxt rest2 ih =>
      intro g hg
      have hcn : cur < nxt := (List.chain'_cons.mp hch).1
      simp only [gradGo, List.mem_cons] at hg
      rcases hg with hg | hg
      · rw [hg]
        linarith
      · exact ih cur nxt hcn ((List.chain'_cons.mp hch).2) g hg

theorem npGradient_pos (x : List ℚ) (hch : x.Chain' (· < ·))
    (h2 : 2 ≤ x.length) : ∀ g ∈ npGradient x, 0 < g := by
  cases x with
  | nil => simp at h2
  | cons x0 xtail =>
      cases xtail with
      | nil => simp at h2
      | cons x1 rest =>
          intro g hg
          have h01 : x0 < x1 := (List.chain'_cons.mp hch).1
          simp only [npGradient, List.mem_cons] at hg
          rcases hg with hg | hg
          · rw [hg]
            linarith
          · exact gradGo_pos rest x0 x1 h01 ((List.chain'_cons.mp hch).2)
              g hg

theorem gradGo_length (rest : List ℚ) (prev cur : ℚ) :
    (gradGo prev cur rest).length = rest.length + 1 := by
  induction rest generalizing prev cur with
  | nil => simp [gradGo]
  | cons nxt rest2 ih => simp [gradGo, ih]

theorem npGradient_length (x : List ℚ) :
    (npGradient x).length = x.length := by
  cases x with
  | nil => simp [npGradient]
  | cons x0 xtail =>
      cases xtail with
      | nil => simp [npGradient]
      | cons x1 rest => simp [npGradient, gradGo_length]

theorem cumsumFrom_length (a : ℚ) (l : List ℚ) :
    (cumsumFrom a l).length = l.length := by
  induction l generalizing a with
  | nil => simp [cumsumFrom]
  | cons v vs ih => simp [cumsumFrom, ih]

theorem cumsumFrom_chain (l : List ℚ) (a : ℚ) (hl : ∀ v ∈ l, 0 < v) :
    (cumsumFrom a l).Chain' (· < ·) := by
  induction l generalizing a with
  | nil => simp [cumsumFrom]
  | cons v vs ih =>
      cases vs with
      | nil => simp [cumsumFrom]
      | cons v2 vs2 =>
          show List.Chain' (· < ·)
            ((a + v) :: (a + v + v2) :: cumsumFrom (a + v + v2) vs2)
          rw [List.chain'_cons]
          constructor
          · have : 0 < v2 := hl v2 (by simp)
            linarith
          · exact ih (a + v) (fun w hw => hl w (by simp [hw]))

theorem zipWith_mem (f : ℚ → ℚ → ℚ) (a b : List ℚ) (x : ℚ)
    (h : x ∈ List.zipWith f a b) : ∃ u ∈ a, ∃ v ∈ b, x = f u v := by
  induction a generalizing b with
  | nil => simp at h
  | cons u us ih =>
      cases b with
      | nil => simp at h
      | cons v vs =>
          simp only [List.zipWith_cons_cons, List.mem_cons] at h
          rcases h with h | h
          · exact ⟨u, by simp, v, by simp, h⟩
          · obtain ⟨u2, hu2, v2, hv2, hx⟩ := ih vs h
            exact ⟨u2, by simp [hu2], v2, by simp [hv2], hx⟩

theorem getD_map_lt (f : ℚ → ℚ) (l : List ℚ) (k : ℕ) (d : ℚ)
    (h : k < l.length) : (l.map f).getD k d = f (l.getD k 0) := by
  induction l generalizing k with
  | nil => simp at h
  | cons x xs ih =>
      cases k with
      | zero => simp
      | succ m =>
          simp only [List.map_cons, List.getD_cons_succ]
          exact ih m (by simpa using h)

theorem zipMul_getD (a b : List ℚ) (k : ℕ) (ha : k < a.length)
    (hb : k < b.length) :
    (zipMul a b).getD k 0 = a.getD k 0 * b.getD k 0 := by
  induction a generalizing b k with
  | nil => simp at ha
  | cons x xs ih =>
      cases b with
      | nil => simp at hb
      | cons y ys =>
          cases k with
          | zero => simp [zipMul]
          | succ m =>
              show (zipMul (x :: xs) (y :: ys)).getD (m + 1) 0 = _
              rw [show zipMul (x :: xs) (y :: ys) =
                (x * y) :: zipMul xs ys from rfl]
              simp only [List.getD_cons_succ]
              exact ih ys m (by simpa using ha) (by simpa using hb)

/-! ## C3: the stored pdf integrates to exactly one -/

theorem normalize_trapz (y zgrid : List ℚ) (hz : zgrid.Chain' (· < ·))
    (hlen : y.length = zgrid.length) (h2 : 2 ≤ zgrid.length)
    (hnn : ∀ k < y.length, 0 ≤ y.getD k 0)
    (hpos : ∃ k, k < y.length ∧ 0 < y.getD k 0) :
    npTrapz (y.map (· / npTrapz y zgrid)) zgrid = 1 := by
  have hT : 0 < npTrapz y zgrid :=
    npTrapz_pos y zgrid hz hlen (by omega) hnn hpos
  rw [npTrapz_map_div, div_self (ne_of_gt hT)]

/-- C3: for every chi squared grid, positive degrees of freedom, strictly
increasing redshift grid of at least two points and positive exponential
oracle, the pdf stored by the zfit output parser integrates to exactly 1
under the trapezoidal rule over the grid, both without a prior and with a
sorted nonnegative prior that is positive somewhere on the grid after
interpolation. -/
theorem parse_pdf_unit_integral (dof : ℚ) (expF : ℚ → ℚ)
    (zgrid chi2 : List ℚ) (prior : Option (List ℚ × List ℚ))
    (hdof : 0 < dof) (hexp : ∀ q, 0 < expF q)
    (hlen : chi2.length = zgrid.length) (hz : zgrid.Chain' (· < ·))
    (h2 : 2 ≤ zgrid.length)
    (hp : match prior with
      | none => True
      | some pq => pq.1.Chain' (· < ·) ∧ pq.1.length = pq.2.length ∧
          (∀ v ∈ pq.2, 0 ≤ v) ∧
          ∃ k, k < zgrid.length ∧
            0 < npInterp (zgrid.getD k 0) pq.1 pq.2) :
    npTrapz (parsePdf dof expF zgrid chi2 prior) zgrid = 1 := by
  cases prior with
  | none =>
      show npTrapz ((chi2.map (fun c => expF (-(1 / 2) *
          ((c - listMin chi2) / (listMin chi2 / dof))))).map
          (· / npTrapz (chi2.map (fun c => expF (-(1 / 2) *
            ((c - listMin chi2) / (listMin chi2 / dof))))) zgrid)) zgrid = 1
      refine normalize_trapz _ _ hz (by simpa using hlen) h2 ?_ ?_
      · intro k hk
        rw [getD_map_lt _ _ _ _ (by simpa using hk)]
        exact le_of_lt (hexp _)
      · refine ⟨0, by simp only [List.length_map]; omega, ?_⟩
        rw [getD_map_lt _ _ _ _ (by omega)]
        exact hexp _
  | some pq =>
      obtain ⟨hpc, hpl, hpn, k, hk, hkpos⟩ := hp
      show npTrapz
          ((zipMul
            (chi2.map (fun c => expF (-(1 / 2) *
              ((c - listMin chi2) / (listMin chi2 / dof)))))
            (zgrid.map (fun zq => npInterp zq pq.1 pq.2))).map
          (· / npTrapz
            (zipMul
              (chi2.map (fun c => expF (-(1 / 2) *
                ((c - listMin chi2) / (listMin chi2 / dof)))))
              (zgrid.map (fun zq => npInterp zq pq.1 pq.2)))
            zgrid))
          zgrid = 1
      have hylen : (zipMul
          (chi2.map (fun c => expF (-(1 / 2) *
            ((c - listMin chi2) / (listMin chi2 / dof)))))
          (zgrid.map (fun zq => npInterp zq pq.1 pq.2))).length =
          zgrid.length := by
        simp [zipMul, List.length_zipWith, hlen]
      refine normalize_trapz _ _ hz hylen h2 ?_ ?_
      · intro j hj
        rw [hylen] at hj
        rw [zipMul_getD _ _ _ (by simp [hlen]; exact hj)
          (by simp; exact hj)]
        rw [getD_map_lt _ _ _ _ (by simpa [hlen] using hj),
          getD_map_lt _ _ _ _ (by simpa using hj)]
        exact mul_nonneg (le_of_lt (hexp _))
          (npInterp_nonneg _ _ _ hpc hpn hpl)
      · refine ⟨k, by rw [hylen]; exact hk, ?_⟩
        rw [zipMul_getD _ _ _ (by simp [hlen]; exact hk)
          (by simp; exact hk)]
        rw [getD_map_lt _ _ _ _ (by simpa [hlen] using hk),
          getD_map_lt _ _ _ _ (by simpa using hk)]
        exact mul_pos (hexp _) hkpos

/-- C3 witness: a concrete two point grid with a prior attached. -/
theorem parse_pdf_unit_integral_witness :
    npTrapz (parsePdf 1 (fun _ => 1) [0, 1] [1, 1]
      (some ([0, 1], [1, 1]))) [0, 1] = 1 :=
  parse_pdf_unit_integral 1 (fun _ => 1) [0, 1] [1, 1]
    (some ([0, 1], [1, 1])) (by norm_num) (fun q => by norm_num) rfl
    (by norm_num [List.chain'_cons]) (by norm_num)
    ⟨by norm_num [List.chain'_cons], rfl, by norm_num,
      ⟨0, by norm_num, by norm_num [npInterp]⟩⟩

/-! ## C8: the five percentile redshifts are monotone -/

/-- C8: for every positive exponential oracle, spline oracle and strictly
increasing fine grid of at least two points, the five percentile
redshifts extracted by the zfit output parser are monotonically
nondecreasing: Z02, Z16, Z50, Z84, Z97 in order. -/
theorem percentiles_monotone (expF splF : ℚ → ℚ) (zfineOk : List ℚ)
    (hexp : ∀ q, 0 < expF q) (hch : zfineOk.Chain' (· < ·))
    (h2 : 2 ≤ zfineOk.length) :
    (percentileStage expF splF zfineOk).Chain' (· ≤ ·) := by
  have hwlen : (zfineOk.map (fun zq => expF (splF zq))).length =
      zfineOk.length := List.length_map _ _
  have hnorm : 0 < npTrapz (zfineOk.map (fun zq => expF (splF zq)))
      zfineOk := by
    refine npTrapz_pos _ _ hch hwlen (by omega) ?_ ?_
    · intro j hj
      rw [getD_map_lt _ _ _ _ (by rw [hwlen] at hj; exact hj)]
      exact le_of_lt (hexp _)
    · refine ⟨0, by rw [hwlen]; omega, ?_⟩
      rw [getD_map_lt _ _ _ _ (by omega)]
      exact hexp _
  have hterms : ∀ t ∈ (zipMul (zfineOk.map (fun zq => expF (splF zq)))
      (npGradient zfineOk)).map
      (fun t => t / npTrapz (zfineOk.map (fun zq => expF (splF zq)))
        zfineOk), 0 < t := by
    intro t ht
    simp only [List.mem_map] at ht
    obtain ⟨u, hu, ht⟩ := ht
    obtain ⟨a, ha, b, hb, huv⟩ := zipWith_mem _ _ _ _ hu
    simp only [List.mem_map] at ha
    obtain ⟨zq, _, ha⟩ := ha
    have hapos : 0 < a := by rw [← ha]; exact hexp _
    have hbpos : 0 < b := npGradient_pos zfineOk hch h2 b hb
    rw [← ht, huv]
    exact div_pos (mul_pos hapos hbpos) hnorm
  have hcdf : (cumsum ((zipMul (zfineOk.map (fun zq => expF (splF zq)))
      (npGradient zfineOk)).map
      (fun t => t / npTrapz (zfineOk.map (fun zq => expF (splF zq)))
        zfineOk))).Chain' (· < ·) :=
    cumsumFrom_chain _ 0 hterms
  have hcdflen : (cumsum ((zipMul (zfineOk.map (fun zq => expF (splF zq)))
      (npGradient zfineOk)).map
      (fun t => t / npTrapz (zfineOk.map (fun zq => expF (splF zq)))
        zfineOk))).length = zfineOk.length := by
    rw [cumsum, cumsumFrom_length, List.length_map]
    simp [zipMul, List.length_zipWith, npGradient_length]
  have hfp : zfineOk.Chain' (· ≤ ·) :=
    List.Chain'.imp (fun a b h => le_of_lt h) hch
  show List.Chain' (· ≤ ·)
    ([1 / 40, 4 / 25, 1 / 2, 21 / 25, 39 / 40].map
      (fun p => npInterp p
        (cumsum ((zipMul (zfineOk.map (fun zq => expF (splF zq)))
          (npGradient zfineOk)).map
          (fun t => t / npTrapz (zfineOk.map (fun zq => expF (splF zq)))
            zfineOk))) zfineOk))
  simp only [List.map_cons, List.map_nil]
  refine List.chain'_cons.mpr ⟨?_, List.chain'_cons.mpr ⟨?_,
    List.chain'_cons.mpr ⟨?_, List.chain'_cons.mpr ⟨?_,
      List.chain'_singleton _⟩⟩⟩⟩
  · exact npInterp_mono _ _ _ _ (by norm_num) hcdf hfp hcdflen
  · exact npInterp_mono _ _ _ _ (by norm_num) hcdf hfp hcdflen
  · exact npInterp_mono _ _ _ _ (by norm_num) hcdf hfp hcdflen
  · exact npInterp_mono _ _ _ _ (by norm_num) hcdf hfp hcdflen

/-- C8 witness: the percentile chain at a concrete two point fine grid. -/
theorem percentiles_monotone_witness :
    (percentileStage (fun _ => 1) (fun _ => 0) [0, 1]).Chain' (· ≤ ·) :=
  percentiles_monotone (fun _ => 1) (fun _ => 0) [0, 1]
    (fun q => by norm_num) (by norm_num [List.chain'_cons]) (by norm_num)

/-! ## C9 and C10: the photometry setters -/

theorem take_append_sub {α : Type} (A B : List α) (n : ℕ)
    (h : B.length = n) :
    (A ++ B).take ((A ++ B).length - n) = A := by
  rw [List.length_append, h, Nat.add_sub_cancel]
  exact List.take_left A B

/-- C9 (amended): for a group with no photometry attached and at least
one strictly positive uncertainty, set_photometry with mismatched
flam/eflam/filters lengths returns the boolean False and leaves the
concatenated science, inverse sigma, weight, mask and wavelength arrays
untouched, so no design matrix is built from the mismatched inputs.
(When no uncertainty is positive the function instead returns True
before ever reaching the dimension check, still leaving the arrays
untouched.) -/
theorem set_photometry_mismatch_fails (sqF : ℚ → ℚ) (st : GroupState)
    (flam eflam filters : List ℚ) (force tfilt : Bool) (min_err : ℚ)
    (h0 : st.Nphot = 0)
    (hsome : 0 < eflam.countP (fun e => decide (0 < e)))
    (hmm : flam.length ≠ eflam.length ∨ flam.length ≠ filters.length) :
    (set_photometry sqF st flam eflam filters force tfilt min_err).1 =
        PyRet.retFalse ∧
      (set_photometry sqF st flam eflam filters force tfilt
        min_err).2.scif = st.scif ∧
      (set_photometry sqF st flam eflam filters force tfilt
        min_err).2.sivarf = st.sivarf ∧
      (set_photometry sqF st flam eflam filters force tfilt
        min_err).2.weightf = st.weightf ∧
      (set_photometry sqF st flam eflam filters force tfilt
        min_err).2.fit_mask = st.fit_mask ∧
      (set_photometry sqF st flam eflam filters force tfilt
        min_err).2.wavef = st.wavef := by
  have h1 : ¬(0 < st.Nphot ∧ force = false) := by simp [h0]
  have h2 : ¬(eflam.countP (fun e => decide (0 < e)) = 0) := by omega
  simp only [set_photometry, if_neg h1, if_neg h2, if_pos hmm]
  simp

/-- C9 witness: mismatched lengths with one valid uncertainty. -/
theorem set_photometry_mismatch_fails_witness :
    (set_photometry (fun q => q) stEx [1] [2] [] false false
        (1 / 50)).1 = PyRet.retFalse ∧
      (set_photometry (fun q => q) stEx [1] [2] [] false false
        (1 / 50)).2.scif = stEx.scif ∧
      (set_photometry (fun q => q) stEx [1] [2] [] false false
        (1 / 50)).2.sivarf = stEx.sivarf ∧
      (set_photometry (fun q => q) stEx [1] [2] [] false false
        (1 / 50)).2.weightf = stEx.weightf ∧
      (set_photometry (fun q => q) stEx [1] [2] [] false false
        (1 / 50)).2.fit_mask = stEx.fit_mask ∧
      (set_photometry (fun q => q) stEx [1] [2] [] false false
        (1 / 50)).2.wavef = stEx.wavef :=
  set_photometry_mismatch_fails (fun q => q) stEx [1] [2] [] false false
    (1 / 50) rfl
    (by norm_num [List.countP_cons, List.countP_nil])
    (Or.inr (by norm_num))

/-- C9 counterexample: with mismatched lengths but no positive
uncertainty, set_photometry returns True, not the claimed False. -/
theorem set_photometry_mismatch_counterexample :
    ([(1 : ℚ)].length ≠ [(-1 : ℚ), -1].length) ∧
      (set_photometry (fun q => q) stEx [1] [-1, -1] [] false false
        (1 / 50)).1 = PyRet.retTrue ∧
      PyRet.retTrue ≠ PyRet.retFalse := by
  refine ⟨by norm_num, ?_, by decide⟩
  norm_num [set_photometry, stEx, List.countP_cons, List.countP_nil]

/-- C10: on a consistent group with no photometry attached, equal length
photometric inputs and strictly positive uncertainties, unset_photometry
immediately after set_photometry restores scif, sivarf, weightf,
fit_mask and wavef exactly, and leaves Nphot = 0 and Nmask and DoF at
their original values. -/
theorem set_unset_photometry_roundtrip (sqF : ℚ → ℚ) (st : GroupState)
    (flam eflam filters : List ℚ) (force tfilt : Bool) (min_err : ℚ)
    (h0 : st.Nphot = 0)
    (hl1 : flam.length = eflam.length)
    (hl2 : flam.length = filters.length)
    (hpos : ∀ e ∈ eflam, 0 < e)
    (hNmask : st.Nmask = countTrue st.fit_mask)
    (hDoF : st.DoF = pyInt (sumWeightMask st.weightf st.fit_mask)) :
    (unset_photometry (set_photometry sqF st flam eflam filters force
        tfilt min_err).2).2.scif = st.scif ∧
      (unset_photometry (set_photometry sqF st flam eflam filters force
        tfilt min_err).2).2.sivarf = st.sivarf ∧
      (unset_photometry (set_photometry sqF st flam eflam filters force
        tfilt min_err).2).2.weightf = st.weightf ∧
      (unset_photometry (set_photometry sqF st flam eflam filters force
        tfilt min_err).2).2.fit_mask = st.fit_mask ∧
      (unset_photometry (set_photometry sqF st flam eflam filters force
        tfilt min_err).2).2.wavef = st.wavef ∧
      (unset_photometry (set_photometry sqF st flam eflam filters force
        tfilt min_err).2).2.Nphot = 0 ∧
      (unset_photometry (set_photometry sqF st flam eflam filters force
        tfilt min_err).2).2.Nmask = st.Nmask ∧
      (unset_photometry (set_photometry sqF st flam eflam filters force
        tfilt min_err).2).2.DoF = st.DoF := by
  have h1 : ¬(0 < st.Nphot ∧ force = false) := by simp [h0]
  have hnph : eflam.countP (fun e => decide (0 < e)) = eflam.length :=
    List.countP_eq_length.mpr (fun e he => by simpa using hpos e he)
  by_cases heq : eflam.length = 0
  · have heflam : eflam = [] := List.length_eq_zero.mp heq
    subst heflam
    have hst1 : ({ st with Nphot := 0 } : GroupState) = st := by
      rw [← h0]
    have hset : (set_photometry sqF st flam [] filters force tfilt
        min_err).2 = st := by
      simp [set_photometry, if_neg h1, hst1]
    rw [hset]
    have hun : (unset_photometry st).2 = st := by
      simp [unset_photometry, if_pos h0]
    rw [hun]
    exact ⟨rfl, rfl, rfl, rfl, rfl, h0, rfl, rfl⟩
  · have h2 : ¬(eflam.countP (fun e => decide (0 < e)) = 0) := by omega
    have h3 : ¬(flam.length ≠ eflam.length ∨
        flam.length ≠ filters.length) := by
      push_neg
      exact ⟨hl1, hl2⟩
    have hp0len : (List.zipWith
        (fun e f => sqF (e ^ 2 + (min_err * f) ^ 2)) eflam flam).length =
        eflam.length := by
      rw [List.length_zipWith]
      omega
    have hpeflen : (List.zipWith (fun e p => if e < 0 then (-99 : ℚ)
        else p) eflam (List.zipWith
        (fun e f => sqF (e ^ 2 + (min_err * f) ^ 2)) eflam
        flam)).length = eflam.length := by
      rw [List.length_zipWith, hp0len]
      omega
    simp only [set_photometry, if_neg h1, if_neg h2, if_neg h3,
      unset_photometry, hnph, if_neg heq]
    refine ⟨?_, ?_, ?_, ?_, ?_, trivial, ?_, ?_⟩
    · exact take_append_sub st.scif flam eflam.length hl1
    · exact take_append_sub st.sivarf _ eflam.length
        (by rw [List.length_map, hpeflen])
    · exact take_append_sub st.weightf _ eflam.length
        (by rw [List.length_map, hpeflen])
    · exact take_append_sub st.fit_mask _ eflam.length
        (by rw [List.length_map])
    · exact take_append_sub st.wavef filters eflam.length
        (by rw [← hl1]; exact hl2.symm)
    · rw [take_append_sub st.fit_mask _ eflam.length
        (by rw [List.length_map])]
      exact hNmask.symm
    · rw [take_append_sub st.fit_mask _ eflam.length
        (by rw [List.length_map]),
        take_append_sub st.weightf _ eflam.length
        (by rw [List.length_map, hpeflen])]
      exact hDoF.symm

/-- C10 witness: a concrete round trip on a one pixel group with one
photometric band. -/
theorem set_unset_photometry_roundtrip_witness :
    (unset_photometry (set_photometry (fun q => q) stEx [1] [1] [2] false
        false (1 / 50)).2).2.scif = stEx.scif ∧
      (unset_photometry (set_photometry (fun q => q) stEx [1] [1] [2]
        false false (1 / 50)).2).2.sivarf = stEx.sivarf ∧
      (unset_photometry (set_photometry (fun q => q) stEx [1] [1] [2]
        false false (1 / 50)).2).2.weightf = stEx.weightf ∧
      (unset_photometry (set_photometry (fun q => q) stEx [1] [1] [2]
        false false (1 / 50)).2).2.fit_mask = stEx.fit_mask ∧
      (unset_photometry (set_photometry (fun q => q) stEx [1] [1] [2]
        false false (1 / 50)).2).2.wavef = stEx.wavef ∧
      (unset_photometry (set_photometry (fun q => q) stEx [1] [1] [2]
        false false (1 / 50)).2).2.Nphot = 0 ∧
      (unset_photometry (set_photometry (fun q => q) stEx [1] [1] [2]
        false false (1 / 50)).2).2.Nmask = stEx.Nmask ∧
      (unset_photometry (set_photometry (fun q => q) stEx [1] [1] [2]
        false false (1 / 50)).2).2.DoF = stEx.DoF :=
  set_unset_photometry_roundtrip (fun q => q) stEx [1] [1] [2] false
    false (1 / 50) rfl rfl rfl
    (by intro e he; simp only [List.mem_singleton] at he; rw [he]; norm_num)
    (by decide)
    (by norm_num [stEx, pyInt, sumWeightMask])
